import Mathlib

/-!
Shallow embedding of the relation-graph resolution and visibility-propagation
core of the recipes monorepo (`src/web/lib/api/adminRecipes.ts` and
`src/web/lib/recipes.ts`), together with theorems settling the spec claims.

Strings are modelled as `List Char`; JavaScript number arithmetic on token
ratios is modelled by exact rational comparisons (the source compares
`matched / labelTokens.length` against the decimal literals 0.9 / 0.75 / 0.6,
which are exact at every token count a real string can have).
-/

namespace RecipesMonorepo

abbrev Str := List Char

/-- The character class `[a-z0-9]` used by `normalizeComparableText`'s regex
(the input was lowercased first, so only lowercase letters and digits count). -/
def isAlnumLower (c : Char) : Bool :=
  (97 ≤ c.toNat && c.toNat ≤ 122) || (48 ≤ c.toNat && c.toNat ≤ 57)

/-- JavaScript `\s` / `trim` whitespace, restricted to the characters that can
actually occur in the data (ASCII whitespace plus NBSP and BOM). -/
def isSpaceJS (c : Char) : Bool :=
  c = ' ' || c = '\t' || c = '\n' || c = '\r' ||
  c.toNat = 11 || c.toNat = 12 || c.toNat = 160 || c.toNat = 65279

/-- `.replace(/[^a-z0-9]+/g, " ")`: every maximal run of non-alphanumeric
characters becomes a single space.  The boolean argument records whether the
previous character belonged to such a run. -/
def collapseNonAlnum : Bool → Str → Str
  | _, [] => []
  | inRun, c :: rest =>
    if isAlnumLower c then c :: collapseNonAlnum false rest
    else if inRun then collapseNonAlnum true rest
    else ' ' :: collapseNonAlnum true rest

/-- JavaScript `String.prototype.trim()`. -/
def jsTrim (l : Str) : Str :=
  ((l.dropWhile isSpaceJS).reverse.dropWhile isSpaceJS).reverse

def toLowerStr (l : Str) : Str := l.map Char.toLower

/-- `normalizeComparableText` from both `recipes.ts` and `adminRecipes.ts`:
`value.toLowerCase().replace(/[^a-z0-9]+/g, " ").trim()`. -/
def normalizeComparableText (value : Str) : Str :=
  jsTrim (collapseNonAlnum false (toLowerStr value))

/-- `String.prototype.includes`: `needle` occurs as a contiguous substring. -/
def containsSub (hay needle : Str) : Bool :=
  hay.tails.any fun t => needle.isPrefixOf t

/-- `.split(" ").filter(Boolean)`: split on single spaces, drop empty pieces. -/
def splitTokens (l : Str) : List Str :=
  (l.splitOn ' ').filter (· ≠ [])

/-- The `matched` counter of `scoreTitleMatch`'s token loop: label tokens for
which some title token passes the two `startsWith` tests. -/
def tokenMatchCount (labelTokens titleTokens : List Str) : Nat :=
  (labelTokens.filter fun labelToken =>
    titleTokens.any fun titleToken =>
      labelToken.isPrefixOf titleToken || titleToken.isPrefixOf labelToken).length

/-- `scoreTitleMatch(labelNorm, titleNorm)` (identical in `recipes.ts` and
`adminRecipes.ts`).  The float comparisons `ratio >= 0.9 / 0.75 / 0.6` are
embedded as the exact cross-multiplied integer comparisons. -/
def scoreTitleMatch (labelNorm titleNorm : Str) : Nat :=
  if labelNorm = [] ∨ titleNorm = [] then 0
  else if titleNorm = labelNorm then 120
  else if labelNorm.isPrefixOf titleNorm then 110
  else if titleNorm.isPrefixOf labelNorm then 95
  else if containsSub titleNorm labelNorm then 85
  else if splitTokens labelNorm = [] ∨ splitTokens titleNorm = [] then 0
  else if 10 * tokenMatchCount (splitTokens labelNorm) (splitTokens titleNorm) ≥
      9 * (splitTokens labelNorm).length then 78
  else if 4 * tokenMatchCount (splitTokens labelNorm) (splitTokens titleNorm) ≥
      3 * (splitTokens labelNorm).length then 72
  else if 5 * tokenMatchCount (splitTokens labelNorm) (splitTokens titleNorm) ≥
      3 * (splitTokens labelNorm).length then 68
  else 0

/-- The scoring function as the spec describes it: normalization applied to
both arguments, then the tier chain. -/
def score (label title : Str) : Nat :=
  scoreTitleMatch (normalizeComparableText label) (normalizeComparableText title)

/-- A label token counts as matched when some title token is a prefix of it or
it is a prefix of some title token (spec §4.2, tier 5). -/
def tokenMatches (labelToken : Str) (titleTokens : List Str) : Prop :=
  ∃ titleToken ∈ titleTokens, labelToken <+: titleToken ∨ titleToken <+: labelToken

instance (lt : Str) (ts : List Str) : Decidable (tokenMatches lt ts) :=
  inferInstanceAs (Decidable (∃ t ∈ ts, _ ∨ _))

/-- The spec's token-overlap ratio: matched label tokens over all label
tokens, as an exact rational. -/
def specRatio (labelTokens titleTokens : List Str) : ℚ :=
  ((labelTokens.filter fun lt => decide (tokenMatches lt titleTokens)).length : ℚ) /
    (labelTokens.length : ℚ)

/-- The spec's wording of `score` (§4.2): tiers stated with abstract
prefix/substring relations and the token ratio as an exact rational. -/
def scoreSpec (label title : Str) : Nat :=
  if normalizeComparableText label = [] ∨ normalizeComparableText title = [] then 0
  else if normalizeComparableText title = normalizeComparableText label then 120
  else if normalizeComparableText label <+: normalizeComparableText title then 110
  else if normalizeComparableText title <+: normalizeComparableText label then 95
  else if normalizeComparableText label <:+: normalizeComparableText title then 85
  else if specRatio (splitTokens (normalizeComparableText label))
      (splitTokens (normalizeComparableText title)) ≥ 0.9 then 78
  else if specRatio (splitTokens (normalizeComparableText label))
      (splitTokens (normalizeComparableText title)) ≥ 0.75 then 72
  else if specRatio (splitTokens (normalizeComparableText label))
      (splitTokens (normalizeComparableText title)) ≥ 0.6 then 68
  else 0

/-! ### Reference extraction (`extractPtnReference`, `collectPtnLabels`) -/

/-- JavaScript regex `\w`: `[A-Za-z0-9_]`. -/
def isWordChar (c : Char) : Bool :=
  (65 ≤ c.toNat && c.toNat ≤ 90) || (97 ≤ c.toNat && c.toNat ≤ 122) ||
  (48 ≤ c.toNat && c.toNat ≤ 57) || c = '_'

/-- JavaScript line terminators, which `.` does not match. -/
def isLineTerm (c : Char) : Bool :=
  c = '\n' || c = '\r' || c.toNat = 8232 || c.toNat = 8233

/-- `\bPTN\b` anchored at the head of the list: the letters p t n
case-insensitively, followed by a non-word character or the end. -/
def startsWithPtn : Str → Bool
  | p :: t :: n :: rest =>
    p.toLower = 'p' && t.toLower = 't' && n.toLower = 'n' &&
    (match rest with | [] => true | c :: _ => !isWordChar c)
  | _ => false

/-- Backtracking for `\s+(.+)$`: try the whitespace run from longest (`k`)
down to one character; the capture must be non-empty and line-terminator
free, running to the end of the input. -/
def regexCapAux (r : Str) : Nat → Option Str
  | 0 => none
  | k + 1 =>
    if r.drop (k + 1) ≠ [] ∧ (r.drop (k + 1)).all (fun c => !isLineTerm c) then
      some (r.drop (k + 1))
    else regexCapAux r k

/-- `\s+(.+)$` applied to the text following the marker. -/
def regexCap (r : Str) : Option Str :=
  regexCapAux r (r.takeWhile isSpaceJS).length

/-- Leftmost match of `/\bPTN\b\s+(.+)$/i`: scan positions left to right; the
boolean records whether the previous character is a word character (for the
leading `\b`). -/
def ptnSearch : Bool → Str → Option Str
  | _, [] => none
  | prevWord, c :: rest =>
    if !prevWord && startsWithPtn (c :: rest) then
      match regexCap ((c :: rest).drop 3) with
      | some cap => some cap
      | none => ptnSearch (isWordChar c) rest
    else ptnSearch (isWordChar c) rest

/-- `extractPtnReference` (both files): match the PTN marker regex, trim the
captured remainder, return null on empty; non-string input (`none`) yields
no label. -/
def extractPtnReference (value : Option Str) : Option Str :=
  match value with
  | none => none
  | some s =>
    match ptnSearch false s with
    | none => none
    | some cap => if jsTrim cap = [] then none else some (jsTrim cap)

structure Ingredient where
  item : Option Str
  text : Option Str
deriving DecidableEq

/-- JavaScript `Set.add` on a set represented as its insertion-ordered
element list. -/
def addLabel (labels : List Str) (l : Str) : List Str :=
  if l ∈ labels then labels else labels ++ [l]

/-- `collectPtnLabels`: the deduplicated labels of a recipe's ingredient
lines, item field first, then text field, in line order. -/
def collectPtnLabels (ingredients : Option (List Ingredient)) : List Str :=
  match ingredients with
  | none => []
  | some ings =>
    ings.foldl (fun labels ing =>
      let afterItem := match extractPtnReference ing.item with
        | some l => addLabel labels l
        | none => labels
      match extractPtnReference ing.text with
      | some l => addLabel afterItem l
      | none => afterItem) []

/-! ### Relation graph building (`resolveLabelTargetId`, adjacency loop) -/

structure TitleIndexRow where
  id : String
  norm : Str
deriving DecidableEq

structure RelationRecipeRow where
  id : String
  title : Str
  ingredients : Option (List Ingredient)
deriving DecidableEq

/-- One candidate of the best-match loop of `resolveLabelTargetId`: strict
improvement only, so the first maximum is retained. -/
def bestTitleStep (labelNorm : Str) (best : Option String × Nat) (row : TitleIndexRow) :
    Option String × Nat :=
  if scoreTitleMatch labelNorm row.norm > best.2 then
    (some row.id, scoreTitleMatch labelNorm row.norm)
  else best

/-- The best-match fold of `resolveLabelTargetId`. -/
def bestTitleFold (labelNorm : Str) (titles : List TitleIndexRow) : Option String × Nat :=
  titles.foldl (bestTitleStep labelNorm) (none, 0)

/-- `resolveLabelTargetId(label, titles)`: best-scoring title id when the
best score reaches the edge-creation threshold 72. -/
def resolveLabelTargetId (label : Str) (titles : List TitleIndexRow) : Option String :=
  if normalizeComparableText label = [] then none
  else if (bestTitleFold (normalizeComparableText label) titles).2 ≥ 72 then
    (bestTitleFold (normalizeComparableText label) titles).1
  else none

/-- `Map<string, Set<string>>` in insertion order. -/
abbrev Adjacency := List (String × List String)

def adjLookup (adj : Adjacency) (k : String) : Option (List String) :=
  match adj with
  | [] => none
  | (k', vs) :: rest => if k' = k then some vs else adjLookup rest k

def adjHasKey (adj : Adjacency) (k : String) : Bool :=
  (adjLookup adj k).isSome

/-- A node's adjacency set (empty for nodes without an entry). -/
def adjNbrs (adj : Adjacency) (k : String) : List String :=
  (adjLookup adj k).getD []

/-- `Map.set`. -/
def mapSet (adj : Adjacency) (k : String) (vs : List String) : Adjacency :=
  match adj with
  | [] => [(k, vs)]
  | (k', vs') :: rest => if k' = k then (k, vs) :: rest else (k', vs') :: mapSet rest k vs

/-- `adjacency.get(k)?.add(v)`: add `v` to `k`'s set when `k` has an entry,
otherwise do nothing. -/
def adjAddNbr (adj : Adjacency) (k v : String) : Adjacency :=
  match adj with
  | [] => []
  | (k', vs) :: rest =>
    if k' = k then (k', if v ∈ vs then vs else vs ++ [v]) :: rest
    else (k', vs) :: adjAddNbr rest k v

def titleIndex (rows : List RelationRecipeRow) : List TitleIndexRow :=
  rows.map fun row => ⟨row.id, normalizeComparableText row.title⟩

/-- The inner edge loop of `resolveRelatedRecipeIds` for one row.  The
per-label target cache is pure memoization of `resolveLabelTargetId` and is
embedded as direct calls. -/
def addRowEdges (titles : List TitleIndexRow) (adj : Adjacency) (row : RelationRecipeRow) :
    Adjacency :=
  (collectPtnLabels row.ingredients).foldl (fun adj label =>
    match resolveLabelTargetId label titles with
    | none => adj
    | some targetId =>
      if targetId = "" ∨ targetId = row.id then adj
      else adjAddNbr (adjAddNbr adj row.id targetId) targetId row.id) adj

/-- The initial adjacency map: one entry with an empty set per corpus id. -/
def initAdj (rows : List RelationRecipeRow) : Adjacency :=
  rows.foldl (fun adj row => mapSet adj row.id []) []

/-- The adjacency structure built over the full recipe corpus: an empty set
per id, then one undirected edge per resolved label. -/
def buildAdjacency (rows : List RelationRecipeRow) : Adjacency :=
  rows.foldl (addRowEdges (titleIndex rows)) (initAdj rows)

/-! ### Component expansion (breadth-first traversal) -/

/-- One step of seed initialisation: a seed missing from the adjacency map or
already visited is skipped; otherwise it enters the visited set and the
queue. -/
def seedStep (adj : Adjacency) (vq : List String × List String) (seed : String) :
    List String × List String :=
  if !adjHasKey adj seed || seed ∈ vq.1 then vq
  else (vq.1 ++ [seed], vq.2 ++ [seed])

/-- Seed initialisation loop of the traversal. -/
def bfsSeedInit (adj : Adjacency) (uniqueSeeds : List String) :
    List String × List String :=
  uniqueSeeds.foldl (seedStep adj) ([], [])

/-- The neighbour loop of one BFS iteration: unvisited neighbours are marked
visited and pushed. -/
def enqueueNbrs (vq : List String × List String) (neighbours : List String) :
    List String × List String :=
  neighbours.foldl (fun vq next =>
    if next ∈ vq.1 then vq else (vq.1 ++ [next], vq.2 ++ [next])) vq

/-- The `while (queue.length > 0)` loop, with explicit fuel (the source's
loop terminates because each iteration pops one queued element and every
push is paired with a fresh visited id). -/
def bfsLoop (adj : Adjacency) : Nat → List String → List String → List String
  | 0, _, visited => visited
  | _ + 1, [], visited => visited
  | fuel + 1, current :: queue, visited =>
    if current = "" then bfsLoop adj fuel queue visited
    else match adjLookup adj current with
      | none => bfsLoop adj fuel queue visited
      | some neighbours =>
        bfsLoop adj fuel (enqueueNbrs (visited, queue) neighbours).2
          (enqueueNbrs (visited, queue) neighbours).1

/-- Total entry count of the adjacency structure: keys plus all neighbour
list lengths; an upper bound on the ids the traversal can ever visit. -/
def adjSize : Adjacency → Nat
  | [] => 0
  | (_, vs) :: rest => 1 + vs.length + adjSize rest

/-- The component expander: BFS from the seed set over the adjacency
structure. -/
def expandComponent (adj : Adjacency) (uniqueSeeds : List String) : List String :=
  bfsLoop adj (uniqueSeeds.length + adjSize adj + 1)
    (bfsSeedInit adj uniqueSeeds).2 (bfsSeedInit adj uniqueSeeds).1

/-- `[...new Set(xs)]`: deduplication keeping first occurrences, in
insertion order. -/
def dedupFirst {α : Type} [DecidableEq α] (l : List α) : List α :=
  l.foldl (fun acc x => if x ∈ acc then acc else acc ++ [x]) []

/-- JavaScript `String.prototype.trim()` on a whole string value. -/
def trimString (s : String) : String :=
  ⟨jsTrim s.data⟩

def uniqueSeedsOf (seedIds : List String) : List String :=
  dedupFirst ((seedIds.map trimString).filter (· ≠ ""))

/-- `resolveRelatedRecipeIds`, with the content-store fetch replaced by the
fetched relation rows as a parameter. -/
def resolveRelatedRecipeIds (rows : List RelationRecipeRow) (seedIds : List String) :
    List String :=
  if uniqueSeedsOf seedIds = [] then []
  else if rows = [] then []
  else expandComponent (buildAdjacency rows) (uniqueSeedsOf seedIds)

/-- Reachability from `s` by zero or more adjacency edges, as the spec's
component contract states it. -/
inductive ReachSpec (adj : Adjacency) (s : String) : String → Prop
  | refl : ReachSpec adj s s
  | step {v w : String} : ReachSpec adj s v → w ∈ adjNbrs adj v → ReachSpec adj s w

/-- A 4-node chain A–B–C–D. -/
def chainAdj : Adjacency :=
  [("A", ["B"]), ("B", ["A", "C"]), ("C", ["B", "D"]), ("D", ["C"])]

/-- Two disjoint 2-node components {A,B} and {C,D}. -/
def twoCompAdj : Adjacency :=
  [("A", ["B"]), ("B", ["A"]), ("C", ["D"]), ("D", ["C"])]

/-- All ids occurring anywhere in the adjacency structure. -/
def adjUniverse : Adjacency → Finset String
  | [] => ∅
  | (k, vs) :: rest => insert k (vs.foldr insert (adjUniverse rest))

/-- A one-recipe corpus used for concrete counterexamples. -/
def soloRow : RelationRecipeRow := ⟨"b", "beta".toList, none⟩

/-- The combined invariant carried through graph building: keys are exactly
the corpus ids, adjacency is symmetric, and no id neighbours itself. -/
def AdjInv (rowIds : List String) (adj : Adjacency) : Prop :=
  (∀ x, adjHasKey adj x = true ↔ x ∈ rowIds) ∧
  (∀ a b, b ∈ adjNbrs adj a → a ∈ adjNbrs adj b) ∧
  (∀ a, a ∉ adjNbrs adj a)

/-- A corpus whose second recipe references the first through a PTN marker
line, producing one undirected edge. -/
def onionRow : RelationRecipeRow := ⟨"r1", "Pickled Red Onion".toList, none⟩

def burgerRow : RelationRecipeRow :=
  ⟨"r2", "Burger".toList, some [⟨some "10 PTN Pickled Red Onion".toList, none⟩]⟩

/-! ### Visibility propagation write path -/

/-- A JavaScript thrown value: an `Error` carrying a message, or any other
thrown value (whose message the classifier treats as empty). -/
inductive Thrown where
  | errorObj (message : Str)
  | nonError
deriving DecidableEq

/-- `error instanceof Error ? error.message.toLowerCase() : ""`. -/
def thrownMessageLower : Thrown → Str
  | .errorObj m => toLowerStr m
  | .nonError => []

/-- The full visibility object written back by one patch. -/
structure VisPatch where
  public : Bool
  enterprise : Bool
deriving DecidableEq

/-- One credentialed write channel: its env-slot name and the outcome of
`client.patch(recipeId).set(...).commit()` for a given recipe and payload
(`none` = committed). -/
structure WriteClient where
  source : String
  attempt : String → VisPatch → Option Thrown

/-- The pieces of server configuration the write path reads. -/
structure SanityEnv where
  writeClients : List WriteClient
  projectId : Option Str
  hasWriteToken : Bool

def strOf (s : String) : Str := s.data

def intercalateComma : List Str → Str
  | [] => []
  | [s] => s
  | s :: rest => s ++ strOf ", " ++ intercalateComma rest

/-- The permission-configured error message (names the attempted channels). -/
def permissionMessage (attemptedSources : List String) : Str :=
  strOf "Sanity token lacks update permission for recipe documents. Tried: " ++
    intercalateComma (attemptedSources.map strOf) ++
    strOf ". Use a token with update grants (prefer SANITY_API_WRITE_TOKEN) and restart the dev server."

/-- The project-mismatch error message (names the configured project). -/
def hostMismatchMessage (projectId : Option Str) : Str :=
  strOf "Sanity write token does not belong to project \"" ++
    projectId.getD (strOf "<missing-project-id>") ++
    strOf "\". Create a write token in that exact project and set SANITY_API_WRITE_TOKEN."

def invalidTokenMessage : Str :=
  strOf "Failed to update recipe visibility due to missing or invalid Sanity token."

def missingTokenMessage : Str :=
  strOf "Missing Sanity API token for updates. Set SANITY_API_WRITE_TOKEN, SANITY_API_TOKEN, or SANITY_API_READ_TOKEN."

inductive FailKind where
  | host
  | permission
  | fatal
deriving DecidableEq

/-- The per-failure classification of `patchRecipeVisibility`'s catch block,
in source order: host mismatch first, then permission denial, anything else
fatal. -/
def classifyThrown (t : Thrown) : FailKind :=
  if containsSub (thrownMessageLower t) (strOf "session does not match project host") then .host
  else if containsSub (thrownMessageLower t) (strOf "insufficient permissions") then .permission
  else .fatal

/-- The classification of one channel's attempt (`none` when it succeeds). -/
def attemptKind (c : WriteClient) (recipeId : String) (next : VisPatch) : Option FailKind :=
  (c.attempt recipeId next).map classifyThrown

/-- The channel loop of `patchRecipeVisibility`: sources are recorded as
channels are attempted, recoverable failures advance the chain, any other
thrown value is re-raised unchanged, and an exhausted chain raises the
classified configuration error (permission first, then host mismatch). -/
def patchChainLoop (projectId : Option Str) (recipeId : String) (next : VisPatch) :
    List WriteClient → Bool → Bool → List String → Option Thrown
  | [], sawHostMismatch, sawPermissionFailure, attemptedSources =>
    if sawPermissionFailure then some (.errorObj (permissionMessage attemptedSources))
    else if sawHostMismatch then some (.errorObj (hostMismatchMessage projectId))
    else some (.errorObj invalidTokenMessage)
  | c :: rest, sawHostMismatch, sawPermissionFailure, attemptedSources =>
    match c.attempt recipeId next with
    | none => none
    | some t =>
      match classifyThrown t with
      | .host => patchChainLoop projectId recipeId next rest true sawPermissionFailure
          (attemptedSources ++ [c.source])
      | .permission => patchChainLoop projectId recipeId next rest sawHostMismatch true
          (attemptedSources ++ [c.source])
      | .fatal => some t

/-- `patchRecipeVisibility(recipeId, nextVisibility)`. -/
def patchRecipeVisibility (env : SanityEnv) (recipeId : String) (next : VisPatch) :
    Option Thrown :=
  patchChainLoop env.projectId recipeId next env.writeClients false false []

/-- The stored (optional) visibility flags of a recipe document. -/
structure VisibilityFlags where
  public : Option Bool
  enterprise : Option Bool
deriving DecidableEq

/-- `ADMIN_AUDIENCES = ["public", "enterprise"]`. -/
inductive AdminAudience where
  | public
  | enterprise
deriving DecidableEq

def getFlag (p : VisPatch) : AdminAudience → Bool
  | .public => p.public
  | .enterprise => p.enterprise

/-- `Boolean(row.visibility?.public)` / `Boolean(row.visibility?.enterprise)`. -/
def effectiveFlag (vis : Option VisibilityFlags) : AdminAudience → Bool
  | .public => ((vis.bind fun v => v.public).getD false)
  | .enterprise => ((vis.bind fun v => v.enterprise).getD false)

/-- `{ public: Boolean(...), enterprise: Boolean(...), [audience]: value }`:
both flags coerced from the current row, then the requested audience's flag
overridden. -/
def nextVisibilityFor (vis : Option VisibilityFlags) (audience : AdminAudience)
    (value : Bool) : VisPatch :=
  match audience with
  | .public => ⟨value, effectiveFlag vis .enterprise⟩
  | .enterprise => ⟨effectiveFlag vis .public, value⟩

/-- A recipe document in the content store. -/
structure StoredRecipe where
  id : String
  title : Str
  pluNumber : Int
  ingredients : Option (List Ingredient)
  visibility : Option VisibilityFlags
deriving DecidableEq

abbrev Store := List StoredRecipe

/-- The relation-graph fetch: id, title and ingredient lines of every
recipe. -/
def relationRows (store : Store) : List RelationRecipeRow :=
  store.map fun r => ⟨r.id, r.title, r.ingredients⟩

/-- One row of the pre-write visibility fetch. -/
structure VisibilityRow where
  id : String
  visibility : Option VisibilityFlags
deriving DecidableEq

/-- The `_id in $ids` visibility fetch. -/
def visibilityRows (store : Store) (ids : List String) : List VisibilityRow :=
  (store.filter fun r => r.id ∈ ids).map fun r => ⟨r.id, r.visibility⟩

def visPatchFlags (p : VisPatch) : VisibilityFlags :=
  ⟨some p.public, some p.enterprise⟩

/-- The store effect of a committed patch: the document's visibility object
is replaced by the full next-state object. -/
def setVisibilityInStore (store : Store) (recipeId : String) (p : VisPatch) : Store :=
  store.map fun r =>
    if r.id = recipeId then { r with visibility := some (visPatchFlags p) } else r

/-- The per-recipe write loop of `setRecipesVisibility`: sequential writes,
stopping at the first patch failure with the store as mutated so far. -/
def writeLoop (env : SanityEnv) (audience : AdminAudience) (value : Bool) :
    Store → List VisibilityRow → Store × List String × Option Thrown
  | store, [] => (store, [], none)
  | store, row :: rest =>
    match patchRecipeVisibility env row.id (nextVisibilityFor row.visibility audience value) with
    | none =>
      let result := writeLoop env audience value
        (setVisibilityInStore store row.id
          (nextVisibilityFor row.visibility audience value)) rest
      (result.1, row.id :: result.2.1, result.2.2)
    | some t => (store, [], some t)

/-- `setRecipesVisibility(seedIds, audience, value)`, returning the final
store state together with the result or the raised error. -/
def setRecipesVisibility (env : SanityEnv) (store : Store) (seedIds : List String)
    (audience : AdminAudience) (value : Bool) :
    Store × Except Thrown (List String × List String) :=
  if env.hasWriteToken = false then
    (store, Except.error (Thrown.errorObj missingTokenMessage))
  else if uniqueSeedsOf seedIds = [] then (store, Except.ok ([], []))
  else if resolveRelatedRecipeIds (relationRows store) (uniqueSeedsOf seedIds) = [] then
    (store, Except.ok ([], []))
  else if visibilityRows store
      (resolveRelatedRecipeIds (relationRows store) (uniqueSeedsOf seedIds)) = [] then
    (store, Except.ok ([], resolveRelatedRecipeIds (relationRows store) (uniqueSeedsOf seedIds)))
  else
    match writeLoop env audience value store
        (visibilityRows store
          (resolveRelatedRecipeIds (relationRows store) (uniqueSeedsOf seedIds))) with
    | (store1, updatedIds, none) =>
      (store1, Except.ok (updatedIds,
        resolveRelatedRecipeIds (relationRows store) (uniqueSeedsOf seedIds)))
    | (store1, _, some t) => (store1, Except.error t)

/-- The cumulative store effect of successfully writing a row list. -/
def applyWrites (audience : AdminAudience) (value : Bool) (store : Store)
    (rows : List VisibilityRow) : Store :=
  rows.foldl (fun s row =>
    setVisibilityInStore s row.id (nextVisibilityFor row.visibility audience value)) store

/-- A channel whose credential is denied update permission. -/
def permClient : WriteClient :=
  ⟨"SANITY_API_WRITE_TOKEN", fun _ _ =>
    some (.errorObj (strOf "Insufficient permissions; permission \"update\" required"))⟩

/-- A chain whose single channel fatally rejects writes to recipe r2 and
commits everything else. -/
def failR2Client : WriteClient :=
  ⟨"SANITY_API_WRITE_TOKEN", fun recipeId _ =>
    if recipeId = "r2" then some Thrown.nonError else none⟩

def envFailR2 : SanityEnv := ⟨[failR2Client], none, true⟩

def rowA : VisibilityRow := ⟨"r1", some ⟨some false, some false⟩⟩

def rowB : VisibilityRow := ⟨"r2", some ⟨some false, some false⟩⟩

/-! ### Idempotence of propagation (C8) -/

/-- The visibility row of a document after its own successful write. -/
def rewriteRow (audience : AdminAudience) (value : Bool) (row : VisibilityRow) :
    VisibilityRow :=
  ⟨row.id, some (visPatchFlags (nextVisibilityFor row.visibility audience value))⟩

/-- The per-row effect of one committed write on a fetched visibility row. -/
def rowUpdateStep (audience : AdminAudience) (value : Bool) (row1 w : VisibilityRow) :
    VisibilityRow :=
  if row1.id = w.id then
    ⟨row1.id, some (visPatchFlags (nextVisibilityFor w.visibility audience value))⟩
  else row1

/-- A single always-committing write channel. -/
def okClient : WriteClient := ⟨"SANITY_API_WRITE_TOKEN", fun _ _ => none⟩

def envOk : SanityEnv := ⟨[okClient], none, true⟩

def soloStore : Store :=
  [⟨"b", "beta".toList, 1, none, some ⟨some false, some false⟩⟩]

def soloStoreAfter : Store :=
  [⟨"b", "beta".toList, 1, none, some ⟨some true, some false⟩⟩]

/-! ### Read-time navigation (`findSubRecipeTargets`, C9) -/

/-- The resolved target exposed for one label. -/
structure SubRecipeTarget where
  id : String
  title : Str
  pluNumber : Int
  directMatch : Bool
deriving DecidableEq

/-- `RecipeAudienceFilter = "public" | "enterprise" | "all"`. -/
inductive RecipeAudienceFilter where
  | public
  | enterprise
  | all
deriving DecidableEq

/-- `visibilityPredicate(audience)` with GROQ `coalesce(..., false)`
semantics evaluated on a stored document. -/
def audienceAllows : RecipeAudienceFilter → Option VisibilityFlags → Bool
  | .public, vis => (vis.bind fun v => v.public).getD false
  | .enterprise, vis => (vis.bind fun v => v.enterprise).getD false
  | .all, vis =>
    ((vis.bind fun v => v.public).getD false) ||
      ((vis.bind fun v => v.enterprise).getD false)

/-- The corpus fetched by `findSubRecipeTargets`: all recipes when
`includeAll`, else only those in the audience scope. -/
def navRows (store : Store) (audience : RecipeAudienceFilter) (includeAll : Bool) :
    Store :=
  if includeAll then store else store.filter fun r => audienceAllows audience r.visibility

/-- One candidate of the best-match loop of `findSubRecipeTargets`: strict
improvement only, with the `directMatch` flag recorded from the score that
installed the candidate.  (The source precomputes each row's normalized
title; that cache is pure and is embedded as a direct call.) -/
def navBestStep (labelNorm : Str) (best : Option SubRecipeTarget × Nat)
    (r : StoredRecipe) : Option SubRecipeTarget × Nat :=
  if scoreTitleMatch labelNorm (normalizeComparableText r.title) > best.2 then
    (some ⟨r.id, r.title, r.pluNumber,
        decide (scoreTitleMatch labelNorm (normalizeComparableText r.title) ≥ 72)⟩,
      scoreTitleMatch labelNorm (normalizeComparableText r.title))
  else best

def navBest (labelNorm : Str) (rows : Store) : Option SubRecipeTarget × Nat :=
  rows.foldl (navBestStep labelNorm) (none, 0)

/-- `[...new Set(labels.map(x => x.trim()).filter(Boolean))]`. -/
def uniqueLabelsOf (labels : List Str) : List Str :=
  dedupFirst ((labels.map jsTrim).filter (· ≠ []))

/-- `findSubRecipeTargets(labels, options)`: the result object as an
association list in loop order; `none` is the explicit unresolved marker. -/
def findSubRecipeTargets (store : Store) (labels : List Str)
    (audience : RecipeAudienceFilter) (includeAll : Bool) :
    List (Str × Option SubRecipeTarget) :=
  if uniqueLabelsOf labels = [] then []
  else
    (uniqueLabelsOf labels).map fun label =>
      if normalizeComparableText label = [] then (label, none)
      else
        (label,
          if (navBest (normalizeComparableText label)
              (navRows store audience includeAll)).2 ≥ 60 then
            (navBest (normalizeComparableText label)
              (navRows store audience includeAll)).1
          else none)

/-- JavaScript property lookup on the result object. -/
def lookupLabel (result : List (Str × Option SubRecipeTarget)) (label : Str) :
    Option (Option SubRecipeTarget) :=
  match result with
  | [] => none
  | (k, v) :: rest => if k = label then some v else lookupLabel rest label

/-- The best-match score of a label over the fetched corpus, as the spec
speaks of it. -/
def navBestScore (labelNorm : Str) (rows : Store) : Nat :=
  rows.foldl (fun m r => max m (scoreTitleMatch labelNorm (normalizeComparableText r.title))) 0

/-- The invariant of the navigation best-candidate fold. -/
def BestInv (b : Option SubRecipeTarget × Nat) : Prop :=
  (∀ t, b.1 = some t → t.directMatch = decide (b.2 ≥ 72)) ∧ (b.1 = none → b.2 = 0)

def betaLabel : Str := "beta".toList

lemma isPrefixOf_eq_true_iff (l₁ l₂ : Str) : l₁.isPrefixOf l₂ = true ↔ l₁ <+: l₂ := by
  exact List.isPrefixOf_iff_prefix

lemma containsSub_eq_true_iff (hay needle : Str) :
    containsSub hay needle = true ↔ needle <:+: hay := by
  simp only [containsSub, List.any_eq_true]
  constructor
  · rintro ⟨t, ht, hp⟩
    rw [List.mem_tails] at ht
    rw [isPrefixOf_eq_true_iff] at hp
    exact List.infix_iff_prefix_suffix.mpr ⟨t, hp, ht⟩
  · intro h
    obtain ⟨t, hp, hs⟩ := List.infix_iff_prefix_suffix.mp h
    exact ⟨t, (List.mem_tails _ _).mpr hs, (isPrefixOf_eq_true_iff _ _).mpr hp⟩

lemma ratio_ge_iff (m n p q : ℕ) (hn : 0 < n) (hq : 0 < q) :
    ((p : ℚ) / (q : ℚ) ≤ (m : ℚ) / (n : ℚ)) ↔ p * n ≤ q * m := by
  rw [div_le_div_iff₀ (by exact_mod_cast hq) (by exact_mod_cast hn),
    mul_comm (m : ℚ) (q : ℚ)]
  norm_cast

example : score "Red Onion".toList "Red Onion Relish".toList = 110 := by decide

example : score "red onion relish".toList "Red Onion".toList = 95 := by decide

example : scoreTitleMatch "x1 x2 x3 x4 x5 a b c d e".toList "x1 x2 x3 x4 x5 q".toList = 0 := by
  decide

lemma tokenMatchCount_eq_spec (lts tts : List Str) :
    tokenMatchCount lts tts = (lts.filter fun lt => decide (tokenMatches lt tts)).length := by
  unfold tokenMatchCount
  congr 1
  apply List.filter_congr
  intro lt _
  rw [Bool.eq_iff_iff]
  simp [List.any_eq_true, tokenMatches, isPrefixOf_eq_true_iff]

lemma specRatio_eq_div (lts tts : List Str) :
    specRatio lts tts = (tokenMatchCount lts tts : ℚ) / (lts.length : ℚ) := by
  rw [specRatio, ← tokenMatchCount_eq_spec]

/-- **C1.** For every label and title, the score first normalizes both strings
and then returns, by first matching tier: 120 on equality, 110 when the title
starts with the label, 95 when the label starts with the title, 85 when the
title contains the label, then the token-overlap ratio tiers 78/72/68/0 at the
0.9/0.75/0.6 boundaries, and 0 whenever either normalized string is empty:
the implemented scoring agrees with the spec-worded tier function everywhere. -/
theorem score_implements_spec_tiers (label title : Str) :
    score label title = scoreSpec label title := by
  unfold score scoreSpec scoreTitleMatch
  set l := normalizeComparableText label with hl
  set t := normalizeComparableText title with ht
  by_cases h0 : l = [] ∨ t = []
  · rw [if_pos h0, if_pos h0]
  rw [if_neg h0, if_neg h0]
  by_cases h1 : t = l
  · rw [if_pos h1, if_pos h1]
  rw [if_neg h1, if_neg h1]
  by_cases h2 : l <+: t
  · rw [if_pos ((isPrefixOf_eq_true_iff l t).mpr h2), if_pos h2]
  rw [if_neg (fun hc => h2 ((isPrefixOf_eq_true_iff l t).mp hc)), if_neg h2]
  by_cases h3 : t <+: l
  · rw [if_pos ((isPrefixOf_eq_true_iff t l).mpr h3), if_pos h3]
  rw [if_neg (fun hc => h3 ((isPrefixOf_eq_true_iff t l).mp hc)), if_neg h3]
  by_cases h4 : l <:+: t
  · rw [if_pos ((containsSub_eq_true_iff t l).mpr h4), if_pos h4]
  rw [if_neg (fun hc => h4 ((containsSub_eq_true_iff t l).mp hc)), if_neg h4]
  by_cases hE : splitTokens l = [] ∨ splitTokens t = []
  · rw [if_pos hE]
    have hr : specRatio (splitTokens l) (splitTokens t) = 0 := by
      rcases hE with hE | hE
      · simp [specRatio, hE]
      · simp [specRatio, hE, tokenMatches]
    rw [if_neg (by rw [hr]; norm_num), if_neg (by rw [hr]; norm_num),
      if_neg (by rw [hr]; norm_num)]
  rw [if_neg hE]
  push_neg at hE
  have hn : 0 < (splitTokens l).length := List.length_pos.mpr hE.1
  set m := tokenMatchCount (splitTokens l) (splitTokens t)
  set n := (splitTokens l).length
  have e78 : 9 * n ≤ 10 * m ↔ (0.9 : ℚ) ≤ specRatio (splitTokens l) (splitTokens t) := by
    rw [specRatio_eq_div, show (0.9 : ℚ) = (9 : ℕ) / (10 : ℕ) by norm_num,
      ratio_ge_iff m n 9 10 hn (by norm_num)]
  have e72 : 3 * n ≤ 4 * m ↔ (0.75 : ℚ) ≤ specRatio (splitTokens l) (splitTokens t) := by
    rw [specRatio_eq_div, show (0.75 : ℚ) = (3 : ℕ) / (4 : ℕ) by norm_num,
      ratio_ge_iff m n 3 4 hn (by norm_num)]
  have e68 : 3 * n ≤ 5 * m ↔ (0.6 : ℚ) ≤ specRatio (splitTokens l) (splitTokens t) := by
    rw [specRatio_eq_div, show (0.6 : ℚ) = (3 : ℕ) / (5 : ℕ) by norm_num,
      ratio_ge_iff m n 3 5 hn (by norm_num)]
  simp only [ge_iff_le]
  rw [if_congr e78 rfl (if_congr e72 rfl (if_congr e68 rfl rfl))]

/-- **C10.** For every pair of input strings the title-match scoring function
only ever returns a value in {0, 68, 72, 78, 85, 95, 110, 120}. -/
theorem scoreTitleMatch_range (labelNorm titleNorm : Str) :
    scoreTitleMatch labelNorm titleNorm ∈ ([0, 68, 72, 78, 85, 95, 110, 120] : List ℕ) := by
  unfold scoreTitleMatch
  repeat' split
  all_goals simp

example : expandComponent chainAdj ["A"] = ["A", "B", "C", "D"] := by decide

example : expandComponent chainAdj ["C"] = ["C", "B", "D", "A"] := by decide

example : expandComponent twoCompAdj ["A", "C"] = ["A", "C", "B", "D"] := by decide

example : expandComponent [("b", [])] ["a"] = [] := by decide

/-! ### Breadth-first traversal correctness -/

lemma enqueueNbrs_spec (ns : List String) : ∀ (v q : List String),
    ∃ news : List String,
      (enqueueNbrs (v, q) ns).1 = v ++ news ∧
      (enqueueNbrs (v, q) ns).2 = q ++ news ∧
      news.Nodup ∧
      (∀ x ∈ news, x ∈ ns ∧ x ∉ v) ∧
      (∀ x ∈ ns, x ∈ v ++ news) := by
  induction ns with
  | nil =>
    intro v q
    exact ⟨[], by simp [enqueueNbrs], by simp [enqueueNbrs], List.nodup_nil,
      by simp, by simp⟩
  | cons n ns ih =>
    intro v q
    by_cases hn : n ∈ v
    · obtain ⟨news, h1, h2, h3, h4, h5⟩ := ih v q
      refine ⟨news, ?_, ?_, h3, ?_, ?_⟩
      · rw [show enqueueNbrs (v, q) (n :: ns) = enqueueNbrs (v, q) ns by
          simp [enqueueNbrs, hn]]
        exact h1
      · rw [show enqueueNbrs (v, q) (n :: ns) = enqueueNbrs (v, q) ns by
          simp [enqueueNbrs, hn]]
        exact h2
      · intro x hx
        exact ⟨List.mem_cons_of_mem _ (h4 x hx).1, (h4 x hx).2⟩
      · intro x hx
        rcases List.mem_cons.mp hx with hx | hx
        · subst hx; exact List.mem_append_left _ hn
        · exact h5 x hx
    · obtain ⟨news, h1, h2, h3, h4, h5⟩ := ih (v ++ [n]) (q ++ [n])
      have hstep : enqueueNbrs (v, q) (n :: ns) = enqueueNbrs (v ++ [n], q ++ [n]) ns := by
        simp [enqueueNbrs, hn]
      refine ⟨n :: news, ?_, ?_, ?_, ?_, ?_⟩
      · rw [hstep, h1]; simp
      · rw [hstep, h2]; simp
      · refine List.nodup_cons.mpr ⟨fun hmem => ?_, h3⟩
        exact (h4 n hmem).2 (List.mem_append_right _ (List.mem_singleton.mpr rfl))
      · intro x hx
        rcases List.mem_cons.mp hx with hx | hx
        · subst hx; exact ⟨List.mem_cons_self _ _, hn⟩
        · refine ⟨List.mem_cons_of_mem _ (h4 x hx).1, fun hv => ?_⟩
          exact (h4 x hx).2 (List.mem_append_left _ hv)
      · intro x hx
        rcases List.mem_cons.mp hx with hx | hx
        · subst hx
          exact List.mem_append_right _ (List.mem_cons_self _ _)
        · have := h5 x hx
          simp only [List.append_assoc, List.singleton_append] at this
          exact this

lemma bfsLoop_mono (adj : Adjacency) : ∀ (fuel : Nat) (queue visited : List String),
    ∀ x ∈ visited, x ∈ bfsLoop adj fuel queue visited := by
  intro fuel
  induction fuel with
  | zero => intro queue visited x hx; simpa [bfsLoop] using hx
  | succ fuel ih =>
    intro queue visited x hx
    cases queue with
    | nil => simpa [bfsLoop] using hx
    | cons current queue =>
      rw [bfsLoop]
      by_cases hc : current = ""
      · rw [if_pos hc]; exact ih _ _ x hx
      · rw [if_neg hc]
        cases hl : adjLookup adj current with
        | none => exact ih _ _ x hx
        | some ns =>
          obtain ⟨news, h1, _, _, _, _⟩ := enqueueNbrs_spec ns visited queue
          exact ih _ _ x (by rw [h1]; exact List.mem_append_left _ hx)

lemma bfsLoop_sound (adj : Adjacency) (P : String → Prop)
    (hP : ∀ v, P v → v ≠ "" → ∀ w ∈ adjNbrs adj v, P w) :
    ∀ (fuel : Nat) (queue visited : List String),
      (∀ x ∈ queue, P x) → (∀ x ∈ visited, P x) →
      ∀ x ∈ bfsLoop adj fuel queue visited, P x := by
  intro fuel
  induction fuel with
  | zero =>
    intro queue visited _ hv x hx
    exact hv x (by simpa [bfsLoop] using hx)
  | succ fuel ih =>
    intro queue visited hq hv x hx
    cases queue with
    | nil => exact hv x (by simpa [bfsLoop] using hx)
    | cons current queue =>
      by_cases hc : current = ""
      · rw [show bfsLoop adj (fuel + 1) (current :: queue) visited =
            bfsLoop adj fuel queue visited by
            simp only [bfsLoop]; rw [if_pos hc]] at hx
        exact ih _ _ (fun y hy => hq y (List.mem_cons_of_mem _ hy)) hv x hx
      · cases hl : adjLookup adj current with
        | none =>
          rw [show bfsLoop adj (fuel + 1) (current :: queue) visited =
              bfsLoop adj fuel queue visited by
              simp only [bfsLoop]; rw [if_neg hc, hl]] at hx
          exact ih _ _ (fun y hy => hq y (List.mem_cons_of_mem _ hy)) hv x hx
        | some ns =>
          have e0 : bfsLoop adj (fuel + 1) (current :: queue) visited =
              bfsLoop adj fuel (enqueueNbrs (visited, queue) ns).2
                (enqueueNbrs (visited, queue) ns).1 := by
            simp only [bfsLoop]; rw [if_neg hc, hl]
          obtain ⟨news, h1, h2, _, h4, _⟩ := enqueueNbrs_spec ns visited queue
          rw [e0, h1, h2] at hx
          have hnbrs : adjNbrs adj current = ns := by
            unfold adjNbrs; rw [hl]; rfl
          have hnews : ∀ y ∈ news, P y := by
            intro y hy
            refine hP current (hq current (List.mem_cons_self _ _)) hc y ?_
            rw [hnbrs]; exact (h4 y hy).1
          refine ih _ _ ?_ ?_ x hx
          · intro y hy
            rcases List.mem_append.mp hy with hy | hy
            · exact hq y (List.mem_cons_of_mem _ hy)
            · exact hnews y hy
          · intro y hy
            rcases List.mem_append.mp hy with hy | hy
            · exact hv y hy
            · exact hnews y hy

lemma mem_foldr_insert (l : List String) (acc : Finset String) (x : String) :
    x ∈ l.foldr insert acc ↔ x ∈ l ∨ x ∈ acc := by
  induction l with
  | nil => simp
  | cons a l ih => simp [ih, or_assoc]

lemma adjLookup_mem_universe (adj : Adjacency) (k : String) (vs : List String)
    (h : adjLookup adj k = some vs) :
    k ∈ adjUniverse adj ∧ ∀ w ∈ vs, w ∈ adjUniverse adj := by
  induction adj with
  | nil => simp [adjLookup] at h
  | cons kv rest ih =>
    obtain ⟨k', vs'⟩ := kv
    rw [adjLookup] at h
    by_cases hk : k' = k
    · rw [if_pos hk] at h
      injection h with h
      subst hk h
      constructor
      · exact Finset.mem_insert_self _ _
      · intro w hw
        exact Finset.mem_insert_of_mem ((mem_foldr_insert _ _ _).mpr (Or.inl hw))
    · rw [if_neg hk] at h
      obtain ⟨h1, h2⟩ := ih h
      constructor
      · exact Finset.mem_insert_of_mem ((mem_foldr_insert _ _ _).mpr (Or.inr h1))
      · intro w hw
        exact Finset.mem_insert_of_mem ((mem_foldr_insert _ _ _).mpr (Or.inr (h2 w hw)))

lemma adjHasKey_mem_universe (adj : Adjacency) (k : String)
    (h : adjHasKey adj k = true) : k ∈ adjUniverse adj := by
  unfold adjHasKey at h
  cases hl : adjLookup adj k with
  | none => rw [hl] at h; simp at h
  | some vs => exact (adjLookup_mem_universe adj k vs hl).1

lemma card_foldr_insert_le (l : List String) (acc : Finset String) :
    (l.foldr insert acc).card ≤ l.length + acc.card := by
  induction l with
  | nil => simp
  | cons a l ih =>
    calc (insert a (l.foldr insert acc)).card ≤ (l.foldr insert acc).card + 1 :=
          Finset.card_insert_le _ _
      _ ≤ l.length + acc.card + 1 := by omega
      _ = (a :: l).length + acc.card := by simp [List.length_cons]; omega

lemma adjUniverse_card_le (adj : Adjacency) : (adjUniverse adj).card ≤ adjSize adj := by
  induction adj with
  | nil => simp [adjUniverse, adjSize]
  | cons kv rest ih =>
    obtain ⟨k, vs⟩ := kv
    calc (adjUniverse ((k, vs) :: rest)).card
        ≤ (vs.foldr insert (adjUniverse rest)).card + 1 := Finset.card_insert_le _ _
      _ ≤ vs.length + (adjUniverse rest).card + 1 := by
          have := card_foldr_insert_le vs (adjUniverse rest); omega
      _ ≤ adjSize ((k, vs) :: rest) := by rw [adjSize]; omega

lemma nodup_length_le_card (l : List String) (s : Finset String)
    (hn : l.Nodup) (hs : ∀ x ∈ l, x ∈ s) : l.length ≤ s.card := by
  classical
  have h1 : l.toFinset.card = l.length := List.toFinset_card_of_nodup hn
  rw [← h1]
  exact Finset.card_le_card fun x hx => hs x (List.mem_toFinset.mp hx)

lemma bfsLoop_closed (adj : Adjacency) (U : Finset String)
    (hU : ∀ k vs, adjLookup adj k = some vs → ∀ w ∈ vs, w ∈ U) :
    ∀ (fuel : Nat) (queue visited : List String),
      (∀ x ∈ queue, x ∈ visited) →
      visited.Nodup → queue.Nodup →
      (∀ x ∈ visited, x ∈ U) →
      (∀ v ∈ visited, v ∉ queue → v ≠ "" → ∀ w ∈ adjNbrs adj v, w ∈ visited) →
      queue.length + (U.card - visited.length) < fuel →
      ∀ v ∈ bfsLoop adj fuel queue visited, v ≠ "" →
        ∀ w ∈ adjNbrs adj v, w ∈ bfsLoop adj fuel queue visited := by
  intro fuel
  induction fuel with
  | zero => intro queue visited _ _ _ _ _ hfuel; omega
  | succ fuel ih =>
    intro queue visited hqv hvN hqN hvU hcl hfuel
    cases queue with
    | nil =>
      simp only [bfsLoop]
      intro v hv hve w hw
      exact hcl v hv (List.not_mem_nil v) hve w hw
    | cons current queue =>
      have hqN' : queue.Nodup := (List.nodup_cons.mp hqN).2
      have hcq : current ∉ queue := (List.nodup_cons.mp hqN).1
      by_cases hc : current = ""
      · rw [show bfsLoop adj (fuel + 1) (current :: queue) visited =
            bfsLoop adj fuel queue visited by
            simp only [bfsLoop]; rw [if_pos hc]]
        refine ih queue visited (fun y hy => hqv y (List.mem_cons_of_mem _ hy))
          hvN hqN' hvU ?_ (by simp at hfuel; omega)
        intro v hv hvq hve w hw
        refine hcl v hv ?_ hve w hw
        intro hmem
        rcases List.mem_cons.mp hmem with hmem | hmem
        · exact hve (hmem.trans hc)
        · exact hvq hmem
      · cases hl : adjLookup adj current with
        | none =>
          rw [show bfsLoop adj (fuel + 1) (current :: queue) visited =
              bfsLoop adj fuel queue visited by
              simp only [bfsLoop]; rw [if_neg hc, hl]]
          refine ih queue visited (fun y hy => hqv y (List.mem_cons_of_mem _ hy))
            hvN hqN' hvU ?_ (by simp at hfuel; omega)
          intro v hv hvq hve w hw
          by_cases hvc : v = current
          · subst hvc
            have : adjNbrs adj v = [] := by unfold adjNbrs; rw [hl]; rfl
            rw [this] at hw
            exact absurd hw (List.not_mem_nil w)
          · refine hcl v hv ?_ hve w hw
            intro hmem
            rcases List.mem_cons.mp hmem with hmem | hmem
            · exact hvc hmem
            · exact hvq hmem
        | some ns =>
          have e0 : bfsLoop adj (fuel + 1) (current :: queue) visited =
              bfsLoop adj fuel (enqueueNbrs (visited, queue) ns).2
                (enqueueNbrs (visited, queue) ns).1 := by
            simp only [bfsLoop]; rw [if_neg hc, hl]
          obtain ⟨news, h1, h2, hnewsN, hnews, hcov⟩ := enqueueNbrs_spec ns visited queue
          rw [e0, h1, h2]
          have hnbrs : adjNbrs adj current = ns := by unfold adjNbrs; rw [hl]; rfl
          have hnewsU : ∀ y ∈ news, y ∈ U := fun y hy => hU current ns hl y (hnews y hy).1
          have hdisj : visited.Disjoint news := fun a ha ha' => (hnews a ha').2 ha
          have hvN' : (visited ++ news).Nodup := List.Nodup.append hvN hnewsN hdisj
          have hlenU : visited.length + news.length ≤ U.card := by
            have := nodup_length_le_card (visited ++ news) U hvN'
              (fun x hx => by
                rcases List.mem_append.mp hx with hx | hx
                · exact hvU x hx
                · exact hnewsU x hx)
            simpa using this
          refine ih (queue ++ news) (visited ++ news) ?_ hvN' ?_ ?_ ?_ ?_
          · intro y hy
            rcases List.mem_append.mp hy with hy | hy
            · exact List.mem_append_left _ (hqv y (List.mem_cons_of_mem _ hy))
            · exact List.mem_append_right _ hy
          · refine List.Nodup.append hqN' hnewsN ?_
            intro a ha ha'
            exact (hnews a ha').2 (hqv a (List.mem_cons_of_mem _ ha))
          · intro y hy
            rcases List.mem_append.mp hy with hy | hy
            · exact hvU y hy
            · exact hnewsU y hy
          · intro v hv hvq hve w hw
            rcases List.mem_append.mp hv with hv | hv
            · by_cases hvc : v = current
              · subst hvc
                rw [hnbrs] at hw
                exact hcov w hw
              · refine List.mem_append_left _ (hcl v hv ?_ hve w hw)
                intro hmem
                rcases List.mem_cons.mp hmem with hmem | hmem
                · exact hvc hmem
                · exact hvq (List.mem_append_left _ hmem)
            · exact absurd (List.mem_append_right _ hv) hvq
          · have hq1 : (current :: queue).length = queue.length + 1 := by simp
            have : (current :: queue).length + (U.card - visited.length) < fuel + 1 := hfuel
            simp only [List.length_append]
            omega

lemma seedFold_spec (adj : Adjacency) :
    ∀ (seeds v : List String), v.Nodup →
      (seeds.foldl (seedStep adj) (v, v)).2 = (seeds.foldl (seedStep adj) (v, v)).1 ∧
      (seeds.foldl (seedStep adj) (v, v)).1.Nodup ∧
      (seeds.foldl (seedStep adj) (v, v)).1.length ≤ v.length + seeds.length ∧
      (∀ x, x ∈ (seeds.foldl (seedStep adj) (v, v)).1 ↔
        x ∈ v ∨ (x ∈ seeds ∧ adjHasKey adj x = true)) := by
  intro seeds
  induction seeds with
  | nil =>
    intro v hv
    refine ⟨rfl, hv, by simp, fun x => ?_⟩
    simp
  | cons s seeds ih =>
    intro v hv
    rw [List.foldl_cons]
    by_cases hcond : (!adjHasKey adj s || decide (s ∈ v)) = true
    · have hstep : seedStep adj (v, v) s = (v, v) := by
        unfold seedStep
        rw [if_pos hcond]
      rw [hstep]
      obtain ⟨ha, hb, hcle, hmem⟩ := ih v hv
      refine ⟨ha, hb, by simpa using Nat.le_succ_of_le hcle, fun x => ?_⟩
      rw [hmem x]
      constructor
      · rintro (hx | ⟨hx1, hx2⟩)
        · exact Or.inl hx
        · exact Or.inr ⟨List.mem_cons_of_mem _ hx1, hx2⟩
      · rintro (hx | ⟨hx1, hx2⟩)
        · exact Or.inl hx
        · rcases List.mem_cons.mp hx1 with hx1 | hx1
          · subst hx1
            rcases Bool.or_eq_true_iff.mp hcond with hcond | hcond
            · rw [Bool.not_eq_eq_eq_not] at hcond
              simp [hx2] at hcond
            · exact Or.inl (of_decide_eq_true hcond)
          · exact Or.inr ⟨hx1, hx2⟩
    · have hkey : adjHasKey adj s = true := by
        cases hks : adjHasKey adj s
        · exact absurd (by simp [hks]) hcond
        · rfl
      have hsv : s ∉ v := by
        intro hsv
        exact hcond (by simp [hsv])
      have hstep : seedStep adj (v, v) s = (v ++ [s], v ++ [s]) := by
        unfold seedStep
        rw [if_neg hcond]
      rw [hstep]
      have hv' : (v ++ [s]).Nodup := by
        refine List.Nodup.append hv (List.nodup_singleton s) ?_
        intro a ha ha'
        rw [List.mem_singleton] at ha'
        subst ha'
        exact hsv ha
      obtain ⟨ha, hb, hcle, hmem⟩ := ih (v ++ [s]) hv'
      refine ⟨ha, hb, by simp at hcle ⊢; omega, fun x => ?_⟩
      rw [hmem x]
      constructor
      · rintro (hx | ⟨hx1, hx2⟩)
        · rcases List.mem_append.mp hx with hx | hx
          · exact Or.inl hx
          · rw [List.mem_singleton] at hx
            subst hx
            exact Or.inr ⟨List.mem_cons_self _ _, hkey⟩
        · exact Or.inr ⟨List.mem_cons_of_mem _ hx1, hx2⟩
      · rintro (hx | ⟨hx1, hx2⟩)
        · exact Or.inl (List.mem_append_left _ hx)
        · rcases List.mem_cons.mp hx1 with hx1 | hx1
          · subst hx1
            exact Or.inl (List.mem_append_right _ (List.mem_singleton.mpr rfl))
          · exact Or.inr ⟨hx1, hx2⟩

lemma adjNbrs_subset_universe (adj : Adjacency) (v w : String)
    (hw : w ∈ adjNbrs adj v) : w ∈ adjUniverse adj := by
  unfold adjNbrs at hw
  cases hl : adjLookup adj v with
  | none => rw [hl] at hw; simp at hw
  | some ns =>
    rw [hl] at hw
    exact (adjLookup_mem_universe adj v ns hl).2 w hw

/-- What the traversal computes, for adjacency structures whose ids are
non-empty strings: exactly the ids reachable from a seed that has an
adjacency entry. -/
lemma expandComponent_mem_iff (adj : Adjacency)
    (hids : ∀ k ∈ adjUniverse adj, k ≠ "")
    (seeds : List String) (x : String) :
    x ∈ expandComponent adj seeds ↔
      ∃ s, s ∈ seeds ∧ adjHasKey adj s = true ∧ ReachSpec adj s x := by
  obtain ⟨hq, hN, hlen, hmem⟩ := seedFold_spec adj seeds [] List.nodup_nil
  have hmem' : ∀ y, y ∈ (bfsSeedInit adj seeds).1 ↔
      y ∈ seeds ∧ adjHasKey adj y = true := by
    intro y
    rw [show (bfsSeedInit adj seeds).1 = (seeds.foldl (seedStep adj) ([], [])).1 from rfl,
      hmem y]
    simp
  have hexp : expandComponent adj seeds =
      bfsLoop adj (seeds.length + adjSize adj + 1)
        (bfsSeedInit adj seeds).1 (bfsSeedInit adj seeds).1 := by
    unfold expandComponent
    rw [show (bfsSeedInit adj seeds).2 = (bfsSeedInit adj seeds).1 from hq]
  constructor
  · intro hx
    rw [hexp] at hx
    refine bfsLoop_sound adj
      (fun y => ∃ s, s ∈ seeds ∧ adjHasKey adj s = true ∧ ReachSpec adj s y)
      ?_ _ _ _ ?_ ?_ x hx
    · rintro v ⟨s, h1, h2, h3⟩ _ w hw
      exact ⟨s, h1, h2, ReachSpec.step h3 hw⟩
    · intro y hy
      obtain ⟨hy1, hy2⟩ := (hmem' y).mp hy
      exact ⟨y, hy1, hy2, ReachSpec.refl⟩
    · intro y hy
      obtain ⟨hy1, hy2⟩ := (hmem' y).mp hy
      exact ⟨y, hy1, hy2, ReachSpec.refl⟩
  · rintro ⟨s, hs, hk, hr⟩
    have hVU : ∀ y ∈ (bfsSeedInit adj seeds).1, y ∈ adjUniverse adj := fun y hy =>
      adjHasKey_mem_universe adj y ((hmem' y).mp hy).2
    have hU : ∀ k vs, adjLookup adj k = some vs → ∀ w ∈ vs, w ∈ adjUniverse adj :=
      fun k vs hkv w hw => (adjLookup_mem_universe adj k vs hkv).2 w hw
    have hNv : (bfsSeedInit adj seeds).1.Nodup := hN
    have hfuel : (bfsSeedInit adj seeds).1.length +
        ((adjUniverse adj).card - (bfsSeedInit adj seeds).1.length) <
        seeds.length + adjSize adj + 1 := by
      have h1 : (bfsSeedInit adj seeds).1.length ≤ seeds.length := by simpa using hlen
      have h2 := adjUniverse_card_le adj
      omega
    have hclosed := bfsLoop_closed adj (adjUniverse adj) hU
      (seeds.length + adjSize adj + 1)
      (bfsSeedInit adj seeds).1 (bfsSeedInit adj seeds).1
      (fun y hy => hy) hNv hNv hVU
      (fun v hv hvq => absurd hv hvq) hfuel
    have hall : ∀ y ∈ expandComponent adj seeds, y ∈ adjUniverse adj := by
      intro y hy
      rw [hexp] at hy
      refine bfsLoop_sound adj (· ∈ adjUniverse adj) ?_ _ _ _ hVU hVU y hy
      intro v _ _ w hw
      exact adjNbrs_subset_universe adj v w hw
    induction hr with
    | refl =>
      rw [hexp]
      exact bfsLoop_mono _ _ _ _ s ((hmem' s).mpr ⟨hs, hk⟩)
    | step h hw ihh =>
      have hv := ihh
      rw [hexp] at hv ⊢
      exact hclosed _ hv (hids _ (hall _ ihh)) _ hw

/-- **C6 (counterexample).** A seed with no entry in the adjacency structure
is reachable from itself via zero edges, yet the expander omits it. -/
theorem expandComponent_omits_entryless_seed :
    ReachSpec [("b", [])] "a" "a" ∧ "a" ∉ expandComponent [("b", [])] ["a"] :=
  ⟨ReachSpec.refl, by decide⟩

/-- **C6 (amended).** For every adjacency structure with non-empty ids and
every seed set, the expander returns exactly the ids reachable via zero or
more edges from some seed that has an adjacency entry; on the 4-node chain
A–B–C–D, expanding from {A} and from {C} both return {A,B,C,D}, and seeds in
two disjoint components expand to the union of both components' members. -/
theorem expandComponent_reachable_sets :
    (∀ (adj : Adjacency), (∀ k ∈ adjUniverse adj, k ≠ "") →
      ∀ (seeds : List String) (x : String),
        (x ∈ expandComponent adj seeds ↔
          ∃ s, s ∈ seeds ∧ adjHasKey adj s = true ∧ ReachSpec adj s x)) ∧
    expandComponent chainAdj ["A"] = ["A", "B", "C", "D"] ∧
    (expandComponent chainAdj ["C"]).toFinset =
      (["A", "B", "C", "D"] : List String).toFinset ∧
    (expandComponent twoCompAdj ["A", "C"]).toFinset =
      (["A", "B"] : List String).toFinset ∪ (["C", "D"] : List String).toFinset :=
  ⟨expandComponent_mem_iff, by decide, by decide, by decide⟩

theorem expandComponent_reachable_sets_witness :
    (∀ k ∈ adjUniverse chainAdj, k ≠ "") ∧ "D" ∈ expandComponent chainAdj ["A"] := by
  refine ⟨by decide, ?_⟩
  refine (expandComponent_reachable_sets.1 chainAdj (by decide) ["A"] "D").mpr ?_
  refine ⟨"A", by decide, by decide, ?_⟩
  have h1 : ReachSpec chainAdj "A" "B" := ReachSpec.step ReachSpec.refl (by decide)
  have h2 : ReachSpec chainAdj "A" "C" := ReachSpec.step h1 (by decide)
  exact ReachSpec.step h2 (by decide)

/-- **C3 (counterexample).** A seed id absent from the adjacency structure
(not a corpus recipe id) is dropped, not kept as a singleton: with corpus
{b} and seed "a", the result is empty. -/
theorem resolveRelated_omits_absent_seed :
    adjHasKey (buildAdjacency [soloRow]) "a" = false ∧
    "a" ∉ resolveRelatedRecipeIds [soloRow] ["a"] := by
  constructor <;> decide

/-- **C3 (amended).** Every seed that has an entry in the adjacency structure
(every corpus recipe id has one, including recipes with no edges, which come
back as singleton members) is included in the returned component set; seeds
absent from the adjacency structure are omitted. -/
theorem seeds_with_adjacency_entry_included (rows : List RelationRecipeRow)
    (seedIds : List String) (s : String)
    (hs : s ∈ uniqueSeedsOf seedIds)
    (hk : adjHasKey (buildAdjacency rows) s = true) :
    s ∈ resolveRelatedRecipeIds rows seedIds := by
  have hseeds : uniqueSeedsOf seedIds ≠ [] := by
    intro h
    rw [h] at hs
    exact absurd hs (List.not_mem_nil s)
  have hrows : rows ≠ [] := by
    intro h
    subst h
    simp [buildAdjacency, adjHasKey, adjLookup] at hk
  unfold resolveRelatedRecipeIds
  rw [if_neg hseeds, if_neg hrows]
  unfold expandComponent
  obtain ⟨hq, _, _, hmem⟩ :=
    seedFold_spec (buildAdjacency rows) (uniqueSeedsOf seedIds) [] List.nodup_nil
  rw [show (bfsSeedInit (buildAdjacency rows) (uniqueSeedsOf seedIds)).2 =
      (bfsSeedInit (buildAdjacency rows) (uniqueSeedsOf seedIds)).1 from hq]
  exact bfsLoop_mono _ _ _ _ s ((hmem s).mpr (Or.inr ⟨hs, hk⟩))

theorem seeds_with_adjacency_entry_included_witness :
    ("b" ∈ uniqueSeedsOf ["b"] ∧ adjHasKey (buildAdjacency [soloRow]) "b" = true) ∧
    "b" ∈ resolveRelatedRecipeIds [soloRow] ["b"] :=
  ⟨⟨by decide, by decide⟩,
    seeds_with_adjacency_entry_included [soloRow] ["b"] "b" (by decide) (by decide)⟩

/-! ### Relation-graph invariants: undirected, no self-loops (C5) -/

lemma adjLookup_mapSet (adj : Adjacency) (k : String) (vs : List String) (x : String) :
    adjLookup (mapSet adj k vs) x = if k = x then some vs else adjLookup adj x := by
  induction adj with
  | nil =>
    by_cases h : k = x <;> simp [mapSet, adjLookup, h]
  | cons kv rest ih =>
    obtain ⟨k', vs'⟩ := kv
    by_cases hk : k' = k
    · subst hk
      by_cases hx : k' = x
      · subst hx
        simp [mapSet, adjLookup]
      · simp [mapSet, adjLookup, hx]
    · by_cases hx : k' = x
      · subst hx
        have hkx : ¬k = k' := fun h => hk h.symm
        simp [mapSet, adjLookup, hk, hkx]
      · simp [mapSet, adjLookup, hk, hx, ih]

lemma adjLookup_adjAddNbr (adj : Adjacency) (k v x : String) :
    adjLookup (adjAddNbr adj k v) x =
      match adjLookup adj x with
      | none => none
      | some vs => some (if x = k then (if v ∈ vs then vs else vs ++ [v]) else vs) := by
  induction adj with
  | nil => simp [adjAddNbr, adjLookup]
  | cons kv rest ih =>
    obtain ⟨k', vs'⟩ := kv
    by_cases hk : k' = k
    · subst hk
      by_cases hx : k' = x
      · subst hx
        simp [adjAddNbr, adjLookup]
      · simp only [adjAddNbr, if_pos rfl, adjLookup, if_neg hx]
        have hxk : ¬x = k' := fun h => hx h.symm
        cases adjLookup rest x with
        | none => rfl
        | some vs => simp [hxk]
    · by_cases hx : k' = x
      · subst hx
        simp [adjAddNbr, adjLookup, hk]
      · simp [adjAddNbr, adjLookup, hk, hx, ih]

lemma adjHasKey_adjAddNbr (adj : Adjacency) (k v x : String) :
    adjHasKey (adjAddNbr adj k v) x = adjHasKey adj x := by
  unfold adjHasKey
  rw [adjLookup_adjAddNbr]
  cases adjLookup adj x <;> rfl

lemma mem_adjNbrs_adjAddNbr (adj : Adjacency) (k v x y : String) :
    y ∈ adjNbrs (adjAddNbr adj k v) x ↔
      y ∈ adjNbrs adj x ∨ (x = k ∧ y = v ∧ adjHasKey adj k = true) := by
  unfold adjNbrs adjHasKey
  rw [adjLookup_adjAddNbr]
  by_cases hxk : x = k
  · subst hxk
    cases hl : adjLookup adj x with
    | none => simp
    | some vs =>
      by_cases hv : v ∈ vs
      · simp [hv]
        exact fun h => h ▸ hv
      · simp [hv]
  · cases hl : adjLookup adj x with
    | none => simp [hxk]
    | some vs => simp [hxk]

lemma mem_adjNbrs_edge (adj : Adjacency) (rid t x y : String) :
    y ∈ adjNbrs (adjAddNbr (adjAddNbr adj rid t) t rid) x ↔
      y ∈ adjNbrs adj x ∨ (x = rid ∧ y = t ∧ adjHasKey adj rid = true) ∨
        (x = t ∧ y = rid ∧ adjHasKey adj t = true) := by
  rw [mem_adjNbrs_adjAddNbr, mem_adjNbrs_adjAddNbr, adjHasKey_adjAddNbr]
  tauto

lemma edge_preserves_AdjInv (rowIds : List String) (adj : Adjacency) (rid t : String)
    (hrid : rid ∈ rowIds) (ht : t ∈ rowIds) (hne : ¬(t = "" ∨ t = rid))
    (hP : AdjInv rowIds adj) :
    AdjInv rowIds (adjAddNbr (adjAddNbr adj rid t) t rid) := by
  obtain ⟨hkeys, hsym, hirr⟩ := hP
  have hkr : adjHasKey adj rid = true := (hkeys rid).mpr hrid
  have hkt : adjHasKey adj t = true := (hkeys t).mpr ht
  have htr : t ≠ rid := fun h => hne (Or.inr h)
  refine ⟨?_, ?_, ?_⟩
  · intro x
    rw [adjHasKey_adjAddNbr, adjHasKey_adjAddNbr]
    exact hkeys x
  · intro a b hb
    rw [mem_adjNbrs_edge] at hb ⊢
    rcases hb with hb | ⟨h1, h2, _⟩ | ⟨h1, h2, _⟩
    · exact Or.inl (hsym a b hb)
    · subst h1; subst h2
      exact Or.inr (Or.inr ⟨rfl, rfl, hkt⟩)
    · subst h1; subst h2
      exact Or.inr (Or.inl ⟨rfl, rfl, hkr⟩)
  · intro a ha
    rw [mem_adjNbrs_edge] at ha
    rcases ha with ha | ⟨h1, h2, -⟩ | ⟨h1, h2, -⟩
    · exact hirr a ha
    · exact htr (h2.symm.trans h1)
    · exact htr (h1.symm.trans h2)

lemma bestTitleFold_go_mem (l : Str) (titles : List TitleIndexRow) :
    ∀ (b : Option String × Nat) (tid : String),
      (titles.foldl (bestTitleStep l) b).1 = some tid →
      b.1 = some tid ∨ tid ∈ titles.map (·.id) := by
  induction titles with
  | nil => intro b tid h; exact Or.inl h
  | cons r rest ih =>
    intro b tid h
    rw [List.foldl_cons] at h
    rcases ih _ tid h with h' | h'
    · unfold bestTitleStep at h'
      by_cases hs : scoreTitleMatch l r.norm > b.2
      · rw [if_pos hs] at h'
        simp only at h'
        injection h' with h'
        subst h'
        exact Or.inr (by simp)
      · rw [if_neg hs] at h'
        exact Or.inl h'
    · exact Or.inr (by simp only [List.map_cons]; exact List.mem_cons_of_mem _ h')

lemma resolveLabelTargetId_mem (label : Str) (titles : List TitleIndexRow) (tid : String)
    (h : resolveLabelTargetId label titles = some tid) : tid ∈ titles.map (·.id) := by
  unfold resolveLabelTargetId at h
  by_cases h0 : normalizeComparableText label = []
  · rw [if_pos h0] at h
    exact absurd h (by simp)
  · rw [if_neg h0] at h
    by_cases h1 : (bestTitleFold (normalizeComparableText label) titles).2 ≥ 72
    · rw [if_pos h1] at h
      unfold bestTitleFold at h
      rcases bestTitleFold_go_mem _ titles (none, 0) tid h with h' | h'
      · exact absurd h' (by simp)
      · exact h'
    · rw [if_neg h1] at h
      exact absurd h (by simp)

lemma titleIndex_ids (rows : List RelationRecipeRow) :
    (titleIndex rows).map (·.id) = rows.map (·.id) := by
  unfold titleIndex
  rw [List.map_map]
  rfl

lemma addRowEdges_preserves (rowIds : List String) (titles : List TitleIndexRow)
    (htid : ∀ label tid, resolveLabelTargetId label titles = some tid → tid ∈ rowIds)
    (row : RelationRecipeRow) (hrow : row.id ∈ rowIds) :
    ∀ (labels : List Str) (adj : Adjacency), AdjInv rowIds adj →
      AdjInv rowIds (labels.foldl (fun adj label =>
        match resolveLabelTargetId label titles with
        | none => adj
        | some targetId =>
          if targetId = "" ∨ targetId = row.id then adj
          else adjAddNbr (adjAddNbr adj row.id targetId) targetId row.id) adj) := by
  intro labels
  induction labels with
  | nil => intro adj hP; exact hP
  | cons label rest ih =>
    intro adj hP
    rw [List.foldl_cons]
    apply ih
    cases hres : resolveLabelTargetId label titles with
    | none => exact hP
    | some t =>
      show AdjInv rowIds (if t = "" ∨ t = row.id then adj
        else adjAddNbr (adjAddNbr adj row.id t) t row.id)
      by_cases hg : t = "" ∨ t = row.id
      · rw [if_pos hg]; exact hP
      · rw [if_neg hg]
        exact edge_preserves_AdjInv rowIds adj row.id t hrow (htid label t hres) hg hP

lemma foldl_addRowEdges_inv (rowIds : List String) (titles : List TitleIndexRow)
    (htid : ∀ label tid, resolveLabelTargetId label titles = some tid → tid ∈ rowIds) :
    ∀ (rs : List RelationRecipeRow) (adj : Adjacency),
      (∀ r ∈ rs, r.id ∈ rowIds) → AdjInv rowIds adj →
      AdjInv rowIds (rs.foldl (addRowEdges titles) adj) := by
  intro rs
  induction rs with
  | nil => intro adj _ hP; exact hP
  | cons r rest ih =>
    intro adj hmem hP
    rw [List.foldl_cons]
    refine ih _ (fun x hx => hmem x (List.mem_cons_of_mem _ hx)) ?_
    unfold addRowEdges
    exact addRowEdges_preserves rowIds titles htid r
      (hmem r (List.mem_cons_self _ _)) _ adj hP

lemma initAdj_go_hasKey (rs : List RelationRecipeRow) :
    ∀ (acc : Adjacency) (x : String),
      adjHasKey (rs.foldl (fun adj row => mapSet adj row.id []) acc) x = true ↔
        x ∈ rs.map (·.id) ∨ adjHasKey acc x = true := by
  induction rs with
  | nil => intro acc x; simp
  | cons r rest ih =>
    intro acc x
    rw [List.foldl_cons, ih]
    unfold adjHasKey
    rw [adjLookup_mapSet]
    by_cases h : r.id = x
    · subst h
      simp
    · have hxr : ¬x = r.id := fun hh => h hh.symm
      simp [h, hxr]

lemma initAdj_go_nbrs (rs : List RelationRecipeRow) :
    ∀ (acc : Adjacency), (∀ z, adjNbrs acc z = []) →
      ∀ z, adjNbrs (rs.foldl (fun adj row => mapSet adj row.id []) acc) z = [] := by
  induction rs with
  | nil => intro acc hacc z; exact hacc z
  | cons r rest ih =>
    intro acc hacc z
    rw [List.foldl_cons]
    refine ih _ (fun y => ?_) z
    unfold adjNbrs
    rw [adjLookup_mapSet]
    by_cases h : r.id = y
    · simp [h]
    · rw [if_neg h]
      exact hacc y

lemma buildAdjacency_inv (rows : List RelationRecipeRow) :
    AdjInv (rows.map (·.id)) (buildAdjacency rows) := by
  unfold buildAdjacency
  refine foldl_addRowEdges_inv (rows.map (·.id)) (titleIndex rows) ?_ rows (initAdj rows)
    (fun r hr => List.mem_map_of_mem _ hr) ?_
  · intro label tid h
    rw [← titleIndex_ids rows]
    exact resolveLabelTargetId_mem label _ tid h
  · refine ⟨?_, ?_, ?_⟩
    · intro x
      unfold initAdj
      rw [initAdj_go_hasKey]
      simp [adjHasKey, adjLookup]
    · intro a b hb
      unfold initAdj at hb
      rw [initAdj_go_nbrs rows [] (fun z => by simp [adjNbrs, adjLookup])] at hb
      exact absurd hb (List.not_mem_nil b)
    · intro a ha
      unfold initAdj at ha
      rw [initAdj_go_nbrs rows [] (fun z => by simp [adjNbrs, adjLookup])] at ha
      exact absurd ha (List.not_mem_nil a)

/-- **C5.** The relation graph built over any recipe corpus is undirected and
has no self-loops: for distinct ids, each appears in the other's adjacency
set exactly when the reverse holds, and no id appears in its own adjacency
set (a label resolving to its owning recipe creates no edge). -/
theorem buildAdjacency_undirected_no_self_loops (rows : List RelationRecipeRow)
    (a b : String) (_hab : a ≠ b) :
    (b ∈ adjNbrs (buildAdjacency rows) a ↔ a ∈ adjNbrs (buildAdjacency rows) b) ∧
    a ∉ adjNbrs (buildAdjacency rows) a := by
  obtain ⟨-, hsym, hirr⟩ := buildAdjacency_inv rows
  exact ⟨⟨fun h => hsym a b h, fun h => hsym b a h⟩, hirr a⟩

example : adjNbrs (buildAdjacency [onionRow, burgerRow]) "r1" = ["r2"] := by decide

example : adjNbrs (buildAdjacency [onionRow, burgerRow]) "r2" = ["r1"] := by decide

theorem buildAdjacency_undirected_witness :
    ("r1" : String) ≠ "r2" ∧
    (("r2" ∈ adjNbrs (buildAdjacency [onionRow, burgerRow]) "r1" ↔
        "r1" ∈ adjNbrs (buildAdjacency [onionRow, burgerRow]) "r2") ∧
      "r1" ∉ adjNbrs (buildAdjacency [onionRow, burgerRow]) "r1") :=
  ⟨by decide,
    buildAdjacency_undirected_no_self_loops [onionRow, burgerRow] "r1" "r2" (by decide)⟩

/-! ### Error classification and partial failure (C2, C4, C7) -/

lemma patchChainLoop_exhausted (projectId : Option Str) (recipeId : String) (next : VisPatch) :
    ∀ (clients : List WriteClient) (sawHost sawPerm : Bool) (attempted : List String),
      (∀ c ∈ clients, ∃ t, c.attempt recipeId next = some t ∧ classifyThrown t ≠ .fatal) →
      patchChainLoop projectId recipeId next clients sawHost sawPerm attempted =
        some (.errorObj (
          if sawPerm || clients.any fun c => attemptKind c recipeId next = some .permission then
            permissionMessage (attempted ++ clients.map (·.source))
          else if sawHost || clients.any fun c => attemptKind c recipeId next = some .host then
            hostMismatchMessage projectId
          else invalidTokenMessage)) := by
  intro clients
  induction clients with
  | nil =>
    intro sawHost sawPerm attempted _
    cases sawHost <;> cases sawPerm <;> simp [patchChainLoop]
  | cons c rest ih =>
    intro sawHost sawPerm attempted hall
    obtain ⟨t, ht, hnf⟩ := hall c (List.mem_cons_self _ _)
    have hrest : ∀ c' ∈ rest,
        ∃ t', c'.attempt recipeId next = some t' ∧ classifyThrown t' ≠ .fatal :=
      fun c' hc' => hall c' (List.mem_cons_of_mem _ hc')
    cases hk : classifyThrown t with
    | host =>
      have hkc : attemptKind c recipeId next = some .host := by
        simp [attemptKind, ht, hk]
      have e : patchChainLoop projectId recipeId next (c :: rest) sawHost sawPerm attempted =
          patchChainLoop projectId recipeId next rest true sawPerm
            (attempted ++ [c.source]) := by
        simp only [patchChainLoop, ht, hk]
      rw [e, ih true sawPerm (attempted ++ [c.source]) hrest]
      simp [hkc, List.any_cons]
    | permission =>
      have hkc : attemptKind c recipeId next = some .permission := by
        simp [attemptKind, ht, hk]
      have e : patchChainLoop projectId recipeId next (c :: rest) sawHost sawPerm attempted =
          patchChainLoop projectId recipeId next rest sawHost true
            (attempted ++ [c.source]) := by
        simp only [patchChainLoop, ht, hk]
      rw [e, ih sawHost true (attempted ++ [c.source]) hrest]
      simp [hkc, List.any_cons]
    | fatal => exact absurd hk hnf

/-- **C2.** Per-channel failures classified as host mismatch or permission
denial advance the chain; any other failure is immediately fatal, surfaced
unchanged, with no further channels and no further recipes attempted; an
exhausted chain raises the permission-configured error (naming the attempted
channels) when any attempt saw a permission denial, else the project
mismatch error (naming the configured project) when any saw a host mismatch,
else the generic invalid-credential error. -/
theorem write_chain_error_classification :
    (∀ (projectId : Option Str) (recipeId : String) (next : VisPatch) (c : WriteClient)
        (rest : List WriteClient) (sawHost sawPerm : Bool) (attempted : List String)
        (t : Thrown),
      c.attempt recipeId next = some t →
      (classifyThrown t = .host →
        patchChainLoop projectId recipeId next (c :: rest) sawHost sawPerm attempted =
          patchChainLoop projectId recipeId next rest true sawPerm
            (attempted ++ [c.source])) ∧
      (classifyThrown t = .permission →
        patchChainLoop projectId recipeId next (c :: rest) sawHost sawPerm attempted =
          patchChainLoop projectId recipeId next rest sawHost true
            (attempted ++ [c.source])) ∧
      (classifyThrown t = .fatal →
        patchChainLoop projectId recipeId next (c :: rest) sawHost sawPerm attempted =
          some t)) ∧
    (∀ (env : SanityEnv) (audience : AdminAudience) (value : Bool) (store : Store)
        (row : VisibilityRow) (rest : List VisibilityRow) (t : Thrown),
      patchRecipeVisibility env row.id (nextVisibilityFor row.visibility audience value) =
        some t →
      writeLoop env audience value store (row :: rest) = (store, [], some t)) ∧
    (∀ (projectId : Option Str) (recipeId : String) (next : VisPatch)
        (clients : List WriteClient),
      (∀ c ∈ clients, ∃ t, c.attempt recipeId next = some t ∧ classifyThrown t ≠ .fatal) →
      patchChainLoop projectId recipeId next clients false false [] =
        some (.errorObj (
          if clients.any fun c => attemptKind c recipeId next = some .permission then
            permissionMessage (clients.map (·.source))
          else if clients.any fun c => attemptKind c recipeId next = some .host then
            hostMismatchMessage projectId
          else invalidTokenMessage))) := by
  refine ⟨?_, ?_, ?_⟩
  · intro projectId recipeId next c rest sawHost sawPerm attempted t ht
    refine ⟨?_, ?_, ?_⟩ <;> intro hk <;> simp only [patchChainLoop, ht, hk]
  · intro env audience value store row rest t hpatch
    simp only [writeLoop, hpatch]
  · intro projectId recipeId next clients hall
    rw [patchChainLoop_exhausted projectId recipeId next clients false false [] hall]
    simp

theorem write_chain_error_classification_witness :
    (∀ c ∈ [permClient], ∃ t, c.attempt "r1" ⟨true, true⟩ = some t ∧
      classifyThrown t ≠ .fatal) ∧
    patchChainLoop none "r1" ⟨true, true⟩ [permClient] false false [] =
      some (.errorObj (permissionMessage ["SANITY_API_WRITE_TOKEN"])) := by
  have hall : ∀ c ∈ [permClient], ∃ t, c.attempt "r1" ⟨true, true⟩ = some t ∧
      classifyThrown t ≠ .fatal := by
    intro c hc
    rw [List.mem_singleton] at hc
    subst hc
    exact ⟨_, rfl, by decide⟩
  refine ⟨hall, ?_⟩
  rw [write_chain_error_classification.2.2 none "r1" ⟨true, true⟩ [permClient] hall]
  set_option maxRecDepth 4000 in decide

/-- **C4.** For every recipe in the component, the next visibility state sets
only the requested audience's flag to the requested boolean, leaves the
other audience's flag at its current (boolean-coerced) value, and the write
stores the full next-state object. -/
theorem next_state_overrides_requested_flag_only (vis : Option VisibilityFlags)
    (audience other : AdminAudience) (value : Bool) (hother : other ≠ audience) :
    getFlag (nextVisibilityFor vis audience value) audience = value ∧
    getFlag (nextVisibilityFor vis audience value) other = effectiveFlag vis other ∧
    (∀ (store : Store) (recipeId : String) (r : StoredRecipe),
      r ∈ setVisibilityInStore store recipeId (nextVisibilityFor vis audience value) →
      r.id = recipeId →
      r.visibility = some (visPatchFlags (nextVisibilityFor vis audience value))) := by
  refine ⟨?_, ?_, ?_⟩
  · cases audience <;> rfl
  · cases audience <;> cases other
    · exact absurd rfl hother
    · rfl
    · rfl
    · exact absurd rfl hother
  · intro store recipeId r hr hid
    unfold setVisibilityInStore at hr
    rcases List.mem_map.mp hr with ⟨orig, _, heq⟩
    by_cases h : orig.id = recipeId
    · rw [if_pos h] at heq
      rw [← heq]
    · rw [if_neg h] at heq
      rw [← heq] at hid
      exact absurd hid h

theorem next_state_overrides_witness :
    (AdminAudience.enterprise ≠ AdminAudience.public) ∧
    getFlag (nextVisibilityFor (some ⟨some true, some true⟩) AdminAudience.public false)
      AdminAudience.public = false ∧
    getFlag (nextVisibilityFor (some ⟨some true, some true⟩) AdminAudience.public false)
      AdminAudience.enterprise =
      effectiveFlag (some ⟨some true, some true⟩) AdminAudience.enterprise :=
  ⟨by decide,
    (next_state_overrides_requested_flag_only (some ⟨some true, some true⟩)
      AdminAudience.public AdminAudience.enterprise false (by decide)).1,
    (next_state_overrides_requested_flag_only (some ⟨some true, some true⟩)
      AdminAudience.public AdminAudience.enterprise false (by decide)).2.1⟩

/-- **C7.** Propagation is partial-failure-visible, not atomic: when the
write for one recipe fails after the preceding recipes were written, those
writes stay committed, no later recipe is attempted, and the error is
surfaced. -/
theorem propagation_partial_failure (env : SanityEnv) (audience : AdminAudience)
    (value : Bool) (store : Store) (pre : List VisibilityRow) (row : VisibilityRow)
    (post : List VisibilityRow) (t : Thrown)
    (hpre : ∀ r ∈ pre, patchRecipeVisibility env r.id
      (nextVisibilityFor r.visibility audience value) = none)
    (hfail : patchRecipeVisibility env row.id
      (nextVisibilityFor row.visibility audience value) = some t) :
    writeLoop env audience value store (pre ++ row :: post) =
      (applyWrites audience value store pre, pre.map (·.id), some t) := by
  induction pre generalizing store with
  | nil =>
    simp only [List.nil_append, applyWrites, List.foldl_nil, List.map_nil]
    simp only [writeLoop, hfail]
  | cons r pre ih =>
    have hr : patchRecipeVisibility env r.id
        (nextVisibilityFor r.visibility audience value) = none :=
      hpre r (List.mem_cons_self _ _)
    have hpre' : ∀ x ∈ pre, patchRecipeVisibility env x.id
        (nextVisibilityFor x.visibility audience value) = none :=
      fun x hx => hpre x (List.mem_cons_of_mem _ hx)
    simp only [List.cons_append, writeLoop, hr, List.append_eq]
    rw [ih _ hpre']
    simp [applyWrites, List.foldl_cons]

theorem propagation_partial_failure_witness :
    ((∀ r ∈ [rowA], patchRecipeVisibility envFailR2 r.id
        (nextVisibilityFor r.visibility AdminAudience.public true) = none) ∧
      patchRecipeVisibility envFailR2 rowB.id
        (nextVisibilityFor rowB.visibility AdminAudience.public true) =
        some Thrown.nonError) ∧
    writeLoop envFailR2 AdminAudience.public true [] ([rowA] ++ rowB :: []) =
      (applyWrites AdminAudience.public true [] [rowA], ["r1"], some Thrown.nonError) :=
  ⟨⟨by decide, by decide⟩,
    propagation_partial_failure envFailR2 AdminAudience.public true [] [rowA] rowB []
      Thrown.nonError (by decide) (by decide)⟩

lemma relationRows_setVis (store : Store) (recipeId : String) (p : VisPatch) :
    relationRows (setVisibilityInStore store recipeId p) = relationRows store := by
  unfold relationRows setVisibilityInStore
  rw [List.map_map]
  refine List.map_congr_left ?_
  intro r _
  by_cases h : r.id = recipeId <;> simp [h]

lemma relationRows_applyWrites (audience : AdminAudience) (value : Bool) :
    ∀ (rows : List VisibilityRow) (store : Store),
      relationRows (applyWrites audience value store rows) = relationRows store := by
  intro rows
  induction rows with
  | nil => intro store; rfl
  | cons w ws ih =>
    intro store
    unfold applyWrites at ih ⊢
    rw [List.foldl_cons, ih, relationRows_setVis]

lemma mem_visibilityRows (store : Store) (ids : List String) (rec : StoredRecipe)
    (hrec : rec ∈ store) (hid : rec.id ∈ ids) :
    (⟨rec.id, rec.visibility⟩ : VisibilityRow) ∈ visibilityRows store ids := by
  unfold visibilityRows
  exact List.mem_map_of_mem _ (List.mem_filter.mpr ⟨hrec, by simpa using hid⟩)

lemma mem_visibilityRows_ids (store : Store) (ids : List String) (row : VisibilityRow)
    (h : row ∈ visibilityRows store ids) : row.id ∈ ids := by
  unfold visibilityRows at h
  rcases List.mem_map.mp h with ⟨rec, hrec, heq⟩
  rw [← heq]
  have := (List.mem_filter.mp hrec).2
  simpa using this

lemma visibilityRows_ids_nodup (store : Store) (ids : List String)
    (h : (store.map (·.id)).Nodup) : ((visibilityRows store ids).map (·.id)).Nodup := by
  unfold visibilityRows
  rw [List.map_map]
  have hsub : ((store.filter fun r => r.id ∈ ids).map fun r => r.id).Sublist
      (store.map fun r => r.id) :=
    (List.filter_sublist store).map _
  exact hsub.nodup h

lemma visibilityRows_setVis (store : Store) (ids : List String) (recipeId : String)
    (p : VisPatch) :
    visibilityRows (setVisibilityInStore store recipeId p) ids =
      (visibilityRows store ids).map (fun row =>
        if row.id = recipeId then ⟨row.id, some (visPatchFlags p)⟩ else row) := by
  unfold visibilityRows setVisibilityInStore
  induction store with
  | nil => rfl
  | cons r rest ih =>
    obtain ⟨rid, rtitle, rplu, ringr, rvis⟩ := r
    by_cases hid : rid = recipeId
    · subst hid
      by_cases hmem : rid ∈ ids <;>
        simp [List.filter_cons, hmem, ih, Function.comp]
    · by_cases hmem : rid ∈ ids <;>
        simp [List.filter_cons, hid, hmem, ih, Function.comp]

lemma visibilityRows_applyWrites (audience : AdminAudience) (value : Bool)
    (ids : List String) :
    ∀ (rows : List VisibilityRow) (store : Store),
      visibilityRows (applyWrites audience value store rows) ids =
        (visibilityRows store ids).map
          (fun row => rows.foldl (rowUpdateStep audience value) row) := by
  intro rows
  induction rows with
  | nil =>
    intro store
    simp [applyWrites]
  | cons w ws ih =>
    intro store
    unfold applyWrites at ih ⊢
    rw [List.foldl_cons, ih, visibilityRows_setVis, List.map_map]
    simp only [List.foldl_cons]
    refine List.map_congr_left ?_
    intro row _
    simp [Function.comp, rowUpdateStep]

lemma foldl_rowUpdate_skip (audience : AdminAudience) (value : Bool) :
    ∀ (rows : List VisibilityRow) (row1 : VisibilityRow),
      (∀ w ∈ rows, w.id ≠ row1.id) →
      rows.foldl (rowUpdateStep audience value) row1 = row1 := by
  intro rows
  induction rows with
  | nil => intro row1 _; rfl
  | cons w ws ih =>
    intro row1 h
    rw [List.foldl_cons]
    rw [show rowUpdateStep audience value row1 w = row1 by
      unfold rowUpdateStep
      rw [if_neg (fun hh => h w (List.mem_cons_self _ _) hh.symm)]]
    exact ih row1 (fun x hx => h x (List.mem_cons_of_mem _ hx))

lemma foldl_rowUpdate_unique (audience : AdminAudience) (value : Bool)
    (rows : List VisibilityRow) (row : VisibilityRow)
    (hmem : row ∈ rows) (hnodup : (rows.map (·.id)).Nodup) :
    rows.foldl (rowUpdateStep audience value) row = rewriteRow audience value row := by
  obtain ⟨a, b, rfl⟩ := List.append_of_mem hmem
  rw [List.map_append, List.map_cons] at hnodup
  rw [List.nodup_append] at hnodup
  obtain ⟨-, hcons, hdisj⟩ := hnodup
  have hA : ∀ w ∈ a, w.id ≠ row.id := by
    intro w hw heq
    exact hdisj (List.mem_map_of_mem _ hw) (heq ▸ List.mem_cons_self _ _)
  have hB : ∀ w ∈ b, w.id ≠ row.id := by
    intro w hw heq
    exact (List.nodup_cons.mp hcons).1 (heq ▸ List.mem_map_of_mem _ hw)
  rw [List.foldl_append, foldl_rowUpdate_skip audience value a row hA, List.foldl_cons]
  rw [show rowUpdateStep audience value row row = rewriteRow audience value row by
    unfold rowUpdateStep rewriteRow
    rw [if_pos rfl]]
  exact foldl_rowUpdate_skip audience value b _ (fun w hw => hB w hw)

lemma visibilityRows_after_success (audience : AdminAudience) (value : Bool)
    (store : Store) (ids : List String) (hnodup : (store.map (·.id)).Nodup) :
    visibilityRows (applyWrites audience value store (visibilityRows store ids)) ids =
      (visibilityRows store ids).map (rewriteRow audience value) := by
  rw [visibilityRows_applyWrites]
  refine List.map_congr_left ?_
  intro row hrow
  exact foldl_rowUpdate_unique audience value _ row hrow
    (visibilityRows_ids_nodup store ids hnodup)

lemma getFlag_nextVisibilityFor (vis : Option VisibilityFlags) (audience : AdminAudience)
    (value : Bool) : getFlag (nextVisibilityFor vis audience value) audience = value := by
  cases audience <;> rfl

lemma nextVisibilityFor_written (audience : AdminAudience) (value : Bool) (p : VisPatch)
    (hp : getFlag p audience = value) :
    nextVisibilityFor (some (visPatchFlags p)) audience value = p := by
  cases audience <;> cases p <;>
    simp_all [nextVisibilityFor, getFlag, effectiveFlag, visPatchFlags]

lemma writeLoop_of_all_success (env : SanityEnv) (audience : AdminAudience) (value : Bool) :
    ∀ (rows : List VisibilityRow) (store : Store),
      (∀ r ∈ rows, patchRecipeVisibility env r.id
        (nextVisibilityFor r.visibility audience value) = none) →
      writeLoop env audience value store rows =
        (applyWrites audience value store rows, rows.map (·.id), none) := by
  intro rows
  induction rows with
  | nil => intro store _; rfl
  | cons row rest ih =>
    intro store hall
    have h1 := hall row (List.mem_cons_self _ _)
    simp only [writeLoop, h1]
    rw [ih _ (fun x hx => hall x (List.mem_cons_of_mem _ hx))]
    simp [applyWrites]

lemma writeLoop_success_inv (env : SanityEnv) (audience : AdminAudience) (value : Bool) :
    ∀ (rows : List VisibilityRow) (store store1 : Store) (ids : List String),
      writeLoop env audience value store rows = (store1, ids, none) →
      store1 = applyWrites audience value store rows ∧
      ids = rows.map (·.id) ∧
      ∀ r ∈ rows, patchRecipeVisibility env r.id
        (nextVisibilityFor r.visibility audience value) = none := by
  intro rows
  induction rows with
  | nil =>
    intro store store1 ids h
    refine ⟨(congrArg Prod.fst h).symm, ?_, by simp⟩
    have := congrArg (fun x => x.2.1) h
    exact this.symm
  | cons row rest ih =>
    intro store store1 ids h
    cases hp : patchRecipeVisibility env row.id
        (nextVisibilityFor row.visibility audience value) with
    | none =>
      simp only [writeLoop, hp] at h
      have e3 : (writeLoop env audience value
          (setVisibilityInStore store row.id
            (nextVisibilityFor row.visibility audience value)) rest).2.2 = none :=
        congrArg (fun x => x.2.2) h
      have hres : writeLoop env audience value
          (setVisibilityInStore store row.id
            (nextVisibilityFor row.visibility audience value)) rest =
          ((writeLoop env audience value
            (setVisibilityInStore store row.id
              (nextVisibilityFor row.visibility audience value)) rest).1,
           (writeLoop env audience value
            (setVisibilityInStore store row.id
              (nextVisibilityFor row.visibility audience value)) rest).2.1, none) := by
        rw [← e3]
      obtain ⟨ha, hb, hc⟩ := ih _ _ _ hres
      have h1 : (writeLoop env audience value
          (setVisibilityInStore store row.id
            (nextVisibilityFor row.visibility audience value)) rest).1 = store1 :=
        congrArg Prod.fst h
      have h2 : row.id :: (writeLoop env audience value
          (setVisibilityInStore store row.id
            (nextVisibilityFor row.visibility audience value)) rest).2.1 = ids :=
        congrArg (fun x => x.2.1) h
      refine ⟨?_, ?_, ?_⟩
      · rw [← h1, ha]
        simp [applyWrites]
      · rw [← h2, hb]
        simp
      · intro r hr
        rcases List.mem_cons.mp hr with hr | hr
        · rw [hr]; exact hp
        · exact hc r hr
    | some t =>
      simp only [writeLoop, hp] at h
      have := congrArg (fun x => x.2.2) h
      simp at this

lemma applyWrites_fixpoint (audience : AdminAudience) (value : Bool) :
    ∀ (rows : List VisibilityRow) (store : Store),
      (∀ r ∈ rows, setVisibilityInStore store r.id
        (nextVisibilityFor r.visibility audience value) = store) →
      applyWrites audience value store rows = store := by
  intro rows
  induction rows with
  | nil => intro store _; rfl
  | cons r rest ih =>
    intro store h
    unfold applyWrites
    rw [List.foldl_cons, h r (List.mem_cons_self _ _)]
    exact ih store (fun x hx => h x (List.mem_cons_of_mem _ hx))

lemma setVis_of_already :
    ∀ (store : Store) (recipeId : String) (p : VisPatch),
      (∀ rec ∈ store, rec.id = recipeId → rec.visibility = some (visPatchFlags p)) →
      setVisibilityInStore store recipeId p = store := by
  intro store
  induction store with
  | nil => intro recipeId p _; rfl
  | cons r rest ih =>
    intro recipeId p h
    have hrec : (if r.id = recipeId then
        { r with visibility := some (visPatchFlags p) } else r) = r := by
      by_cases hid : r.id = recipeId
      · rw [if_pos hid]
        have hv := h r (List.mem_cons_self _ _) hid
        cases r
        simp_all
      · rw [if_neg hid]
    calc setVisibilityInStore (r :: rest) recipeId p
        = (if r.id = recipeId then
            { r with visibility := some (visPatchFlags p) } else r) ::
          setVisibilityInStore rest recipeId p := rfl
      _ = r :: rest := by
          rw [hrec, ih recipeId p (fun x hx hid => h x (List.mem_cons_of_mem _ hx) hid)]

lemma eq_of_mem_of_nodup_ids (rows : List VisibilityRow)
    (hnodup : (rows.map (·.id)).Nodup) (x y : VisibilityRow)
    (hx : x ∈ rows) (hy : y ∈ rows) (hid : x.id = y.id) : x = y :=
  List.inj_on_of_nodup_map hnodup hx hy hid

/-- **C8.** Running a propagation a second time with identical seeds,
audience and value after a successful first run raises no error and leaves
every recipe's final visibility state (and the reported id lists) unchanged;
document ids are assumed unique, as the content store's data model
guarantees. -/
theorem propagation_idempotent (env : SanityEnv) (store : Store) (seedIds : List String)
    (audience : AdminAudience) (value : Bool) (store1 : Store)
    (out : List String × List String)
    (hnodup : (store.map (·.id)).Nodup)
    (hrun : setRecipesVisibility env store seedIds audience value =
      (store1, Except.ok out)) :
    setRecipesVisibility env store1 seedIds audience value = (store1, Except.ok out) := by
  unfold setRecipesVisibility at hrun ⊢
  by_cases htok : env.hasWriteToken = false
  · rw [if_pos htok] at hrun
    have hbad := congrArg Prod.snd hrun
    simp at hbad
  rw [if_neg htok] at hrun ⊢
  by_cases hseeds : uniqueSeedsOf seedIds = []
  · rw [if_pos hseeds] at hrun ⊢
    have h2 : (Except.ok ([], []) : Except Thrown (List String × List String)) =
        Except.ok out := congrArg Prod.snd hrun
    have h1 : store = store1 := congrArg Prod.fst hrun
    rw [h2]
  rw [if_neg hseeds] at hrun ⊢
  set related := resolveRelatedRecipeIds (relationRows store) (uniqueSeedsOf seedIds)
    with hrel
  by_cases hrelE : related = []
  · rw [if_pos hrelE] at hrun
    have h1 : store = store1 := congrArg Prod.fst hrun
    have h2 : (Except.ok ([], []) : Except Thrown (List String × List String)) =
        Except.ok out := congrArg Prod.snd hrun
    subst h1
    rw [← hrel, if_pos hrelE, h2]
  rw [if_neg hrelE] at hrun
  set rows1 := visibilityRows store related with hrows1
  by_cases hrowsE : rows1 = []
  · rw [if_pos hrowsE] at hrun
    have h1 : store = store1 := congrArg Prod.fst hrun
    have h2 : (Except.ok ([], related) : Except Thrown (List String × List String)) =
        Except.ok out := congrArg Prod.snd hrun
    subst h1
    rw [← hrel, if_neg hrelE, ← hrows1, if_pos hrowsE, h2]
  rw [if_neg hrowsE] at hrun
  cases hw : writeLoop env audience value store rows1 with
  | mk s1 q =>
    cases q with
    | mk ids1 err1 =>
      rw [hw] at hrun
      cases err1 with
      | some t =>
        have hbad : (Except.error t : Except Thrown (List String × List String)) =
            Except.ok out := congrArg Prod.snd hrun
        simp at hbad
      | none =>
        have h1 : s1 = store1 := congrArg Prod.fst hrun
        have h2 : (Except.ok (ids1, related) : Except Thrown (List String × List String)) =
            Except.ok out := congrArg Prod.snd hrun
        injection h2 with hout
        subst hout
        subst h1
        obtain ⟨hs1, hids1, hall1⟩ :=
          writeLoop_success_inv env audience value rows1 store s1 ids1 hw
        have hrelRows : relationRows s1 = relationRows store := by
          rw [hs1]
          exact relationRows_applyWrites audience value rows1 store
        rw [hrelRows, ← hrel, if_neg hrelE]
        have hrows2 : visibilityRows s1 related =
            rows1.map (rewriteRow audience value) := by
          rw [hs1, hrows1]
          exact visibilityRows_after_success audience value store related hnodup
        rw [hrows2]
        have hrows2ne : rows1.map (rewriteRow audience value) ≠ [] := by
          intro hh
          exact hrowsE (by simpa using hh)
        rw [if_neg hrows2ne]
        have hnextg : ∀ row : VisibilityRow,
            nextVisibilityFor (rewriteRow audience value row).visibility audience value =
              nextVisibilityFor row.visibility audience value := by
          intro row
          show nextVisibilityFor
            (some (visPatchFlags (nextVisibilityFor row.visibility audience value)))
            audience value = _
          exact nextVisibilityFor_written audience value _
            (getFlag_nextVisibilityFor _ _ _)
        have hall2 : ∀ r ∈ rows1.map (rewriteRow audience value),
            patchRecipeVisibility env r.id
              (nextVisibilityFor r.visibility audience value) = none := by
          intro r hr
          rcases List.mem_map.mp hr with ⟨row, hrow, hreq⟩
          rw [← hreq, hnextg row,
            show (rewriteRow audience value row).id = row.id from rfl]
          exact hall1 row hrow
        have hwl2 := writeLoop_of_all_success env audience value
          (rows1.map (rewriteRow audience value)) s1 hall2
        rw [hwl2]
        have hnodup2 : ((rows1.map (rewriteRow audience value)).map (·.id)).Nodup := by
          rw [List.map_map]
          have := visibilityRows_ids_nodup store related hnodup
          rw [← hrows1] at this
          exact this
        have hfix : applyWrites audience value s1
            (rows1.map (rewriteRow audience value)) = s1 := by
          refine applyWrites_fixpoint audience value _ s1 ?_
          intro r hr
          rcases List.mem_map.mp hr with ⟨row, hrow, hreq⟩
          rw [← hreq, hnextg row,
            show (rewriteRow audience value row).id = row.id from rfl]
          refine setVis_of_already s1 row.id _ ?_
          intro rec hrec hrecid
          have hrowid : row.id ∈ related := by
            refine mem_visibilityRows_ids store related row ?_
            rw [← hrows1]
            exact hrow
          have hmem1 : (⟨rec.id, rec.visibility⟩ : VisibilityRow) ∈
              visibilityRows s1 related :=
            mem_visibilityRows s1 related rec hrec (hrecid ▸ hrowid)
          rw [hrows2] at hmem1
          have hmem2 : rewriteRow audience value row ∈
              rows1.map (rewriteRow audience value) :=
            List.mem_map_of_mem _ hrow
          have heqrow : (⟨rec.id, rec.visibility⟩ : VisibilityRow) =
              rewriteRow audience value row := by
            refine eq_of_mem_of_nodup_ids _ hnodup2 _ _ hmem1 hmem2 ?_
            show rec.id = (rewriteRow audience value row).id
            rw [show (rewriteRow audience value row).id = row.id from rfl]
            exact hrecid
          have := congrArg VisibilityRow.visibility heqrow
          exact this
        rw [hfix]
        have hids2 : (rows1.map (rewriteRow audience value)).map (·.id) = ids1 := by
          rw [List.map_map]
          exact hids1.symm
        rw [hids2]

theorem propagation_idempotent_witness :
    ((soloStore.map (·.id)).Nodup ∧
      setRecipesVisibility envOk soloStore ["b"] AdminAudience.public true =
        (soloStoreAfter, Except.ok (["b"], ["b"]))) ∧
    setRecipesVisibility envOk soloStoreAfter ["b"] AdminAudience.public true =
      (soloStoreAfter, Except.ok (["b"], ["b"])) :=
  ⟨⟨by decide, by rfl⟩,
    propagation_idempotent envOk soloStore ["b"] AdminAudience.public true
      soloStoreAfter (["b"], ["b"]) (by decide) (by rfl)⟩

lemma navBestStep_inv (labelNorm : Str) (b : Option SubRecipeTarget × Nat)
    (r : StoredRecipe) (hb : BestInv b) : BestInv (navBestStep labelNorm b r) := by
  unfold navBestStep
  by_cases hs : scoreTitleMatch labelNorm (normalizeComparableText r.title) > b.2
  · rw [if_pos hs]
    constructor
    · intro t ht
      injection ht with ht
      rw [← ht]
    · intro ht
      exact absurd ht (by simp)
  · rw [if_neg hs]
    exact hb

lemma navBest_go_score (labelNorm : Str) :
    ∀ (rows : Store) (b : Option SubRecipeTarget × Nat),
      (rows.foldl (navBestStep labelNorm) b).2 =
        rows.foldl
          (fun m r => max m (scoreTitleMatch labelNorm (normalizeComparableText r.title)))
          b.2 := by
  intro rows
  induction rows with
  | nil => intro b; rfl
  | cons r rest ih =>
    intro b
    rw [List.foldl_cons, List.foldl_cons, ih]
    congr 1
    unfold navBestStep
    by_cases hs : scoreTitleMatch labelNorm (normalizeComparableText r.title) > b.2
    · rw [if_pos hs]
      exact (Nat.max_eq_right (Nat.le_of_lt hs)).symm
    · rw [if_neg hs]
      exact (Nat.max_eq_left (Nat.le_of_not_lt hs)).symm

lemma navBest_go_inv (labelNorm : Str) :
    ∀ (rows : Store) (b : Option SubRecipeTarget × Nat),
      BestInv b → BestInv (rows.foldl (navBestStep labelNorm) b) := by
  intro rows
  induction rows with
  | nil => intro b hb; exact hb
  | cons r rest ih =>
    intro b hb
    rw [List.foldl_cons]
    exact ih _ (navBestStep_inv labelNorm b r hb)

lemma navBest_spec (labelNorm : Str) (rows : Store) :
    (navBest labelNorm rows).2 = navBestScore labelNorm rows ∧
    BestInv (navBest labelNorm rows) := by
  constructor
  · exact navBest_go_score labelNorm rows (none, 0)
  · exact navBest_go_inv labelNorm rows (none, 0) ⟨by simp, fun _ => rfl⟩

lemma mem_dedupFirst {α : Type} [DecidableEq α] (l : List α) (x : α) :
    x ∈ dedupFirst l ↔ x ∈ l := by
  have hgen : ∀ (l : List α) (acc : List α) (x : α),
      x ∈ l.foldl (fun acc x => if x ∈ acc then acc else acc ++ [x]) acc ↔
        x ∈ acc ∨ x ∈ l := by
    intro l
    induction l with
    | nil => intro acc x; simp
    | cons a l ih =>
      intro acc x
      rw [List.foldl_cons]
      by_cases ha : a ∈ acc
      · rw [if_pos ha, ih]
        constructor
        · rintro (h | h)
          · exact Or.inl h
          · exact Or.inr (List.mem_cons_of_mem _ h)
        · rintro (h | h)
          · exact Or.inl h
          · rcases List.mem_cons.mp h with h | h
            · exact Or.inl (h ▸ ha)
            · exact Or.inr h
      · rw [if_neg ha, ih]
        constructor
        · rintro (h | h)
          · rcases List.mem_append.mp h with h | h
            · exact Or.inl h
            · rw [List.mem_singleton] at h
              exact Or.inr (h ▸ List.mem_cons_self _ _)
          · exact Or.inr (List.mem_cons_of_mem _ h)
        · rintro (h | h)
          · exact Or.inl (List.mem_append_left _ h)
          · rcases List.mem_cons.mp h with h | h
            · exact Or.inl (List.mem_append_right _ (List.mem_singleton.mpr h))
            · exact Or.inr h
  have := hgen l [] x
  simpa using this

lemma lookupLabel_map_self (f : Str → Str × Option SubRecipeTarget)
    (hf : ∀ l, (f l).1 = l) :
    ∀ (ls : List Str) (label : Str), label ∈ ls →
      lookupLabel (ls.map f) label = some (f label).2 := by
  intro ls
  induction ls with
  | nil => intro label h; exact absurd h (List.not_mem_nil label)
  | cons k rest ih =>
    intro label h
    rw [List.map_cons]
    show (if (f k).1 = label then some (f k).2 else lookupLabel (rest.map f) label) = _
    by_cases hk : k = label
    · subst hk
      rw [if_pos (hf k)]
    · rw [if_neg (by rw [hf k]; exact hk)]
      rcases List.mem_cons.mp h with h | h
      · exact absurd h.symm hk
      · exact ih label h

lemma scoreTitleMatch_nil_label (t : Str) : scoreTitleMatch [] t = 0 := by
  unfold scoreTitleMatch
  rw [if_pos (Or.inl rfl)]

lemma navBestScore_nil_label (rows : Store) : navBestScore [] rows = 0 := by
  unfold navBestScore
  induction rows with
  | nil => rfl
  | cons r rest ih =>
    rw [List.foldl_cons, scoreTitleMatch_nil_label]
    exact ih

/-- **C9 (counterexample).** A whitespace-only input label is dropped from
the output entirely: it is mapped neither to a target nor to the explicit
unresolved marker. -/
theorem nav_resolution_drops_blank_label :
    lookupLabel (findSubRecipeTargets [] [[' ']] RecipeAudienceFilter.all true) [' '] =
      none ∧
    findSubRecipeTargets [] [[' ']] RecipeAudienceFilter.all true = [] := by
  constructor <;> decide

/-- **C9 (amended).** Every candidate label whose trimmed form is non-empty
is mapped (under its trimmed key) to a resolved target or the explicit
unresolved marker: the marker exactly when the best-match score is below 60,
otherwise a target whose direct-confidence flag is true exactly when the
best-match score is at least 72 (so the flag is false exactly on [60, 72));
whitespace-only labels are omitted from the output. -/
theorem nav_resolution_thresholds (store : Store) (labels : List Str)
    (audience : RecipeAudienceFilter) (includeAll : Bool) (label : Str)
    (hmem : label ∈ labels) (hne : jsTrim label ≠ []) :
    ∃ r, lookupLabel (findSubRecipeTargets store labels audience includeAll)
        (jsTrim label) = some r ∧
      ((navBestScore (normalizeComparableText (jsTrim label))
          (navRows store audience includeAll) < 60 ∧ r = none) ∨
        (60 ≤ navBestScore (normalizeComparableText (jsTrim label))
          (navRows store audience includeAll) ∧
          ∃ t, r = some t ∧
            (t.directMatch = true ↔
              72 ≤ navBestScore (normalizeComparableText (jsTrim label))
                (navRows store audience includeAll)))) := by
  have hmemU : jsTrim label ∈ uniqueLabelsOf labels := by
    unfold uniqueLabelsOf
    rw [mem_dedupFirst]
    refine List.mem_filter.mpr ⟨List.mem_map_of_mem _ hmem, by simpa using hne⟩
  have hne' : uniqueLabelsOf labels ≠ [] := by
    intro h
    rw [h] at hmemU
    exact absurd hmemU (List.not_mem_nil _)
  unfold findSubRecipeTargets
  rw [if_neg hne']
  rw [lookupLabel_map_self _ (fun l => by
      by_cases h : normalizeComparableText l = [] <;> simp [h]) _ _ hmemU]
  set labelNorm := normalizeComparableText (jsTrim label) with hln
  obtain ⟨hscore, hinv⟩ := navBest_spec labelNorm (navRows store audience includeAll)
  by_cases h0 : labelNorm = []
  · refine ⟨none, ?_, Or.inl ⟨?_, rfl⟩⟩
    · simp [h0]
    · rw [h0, navBestScore_nil_label]
      omega
  · refine ⟨(if (navBest labelNorm (navRows store audience includeAll)).2 ≥ 60 then
        (navBest labelNorm (navRows store audience includeAll)).1 else none), ?_, ?_⟩
    · rw [if_neg h0]
    · by_cases h60 : (navBest labelNorm (navRows store audience includeAll)).2 ≥ 60
      · refine Or.inr ⟨by rw [← hscore]; exact h60, ?_⟩
        cases hb : (navBest labelNorm (navRows store audience includeAll)).1 with
        | none =>
          have := hinv.2 hb
          omega
        | some t =>
          refine ⟨t, by rw [if_pos h60], ?_⟩
          rw [hinv.1 t hb, ← hscore]
          simp [decide_eq_true_eq]
      · refine Or.inl ⟨?_, by rw [if_neg h60]⟩
        rw [← hscore]
        omega

theorem nav_resolution_thresholds_witness :
    (betaLabel ∈ [betaLabel] ∧ jsTrim betaLabel ≠ []) ∧
    (∃ r, lookupLabel
        (findSubRecipeTargets soloStore [betaLabel] RecipeAudienceFilter.all true)
        (jsTrim betaLabel) = some r ∧
      ((navBestScore (normalizeComparableText (jsTrim betaLabel))
          (navRows soloStore RecipeAudienceFilter.all true) < 60 ∧ r = none) ∨
        (60 ≤ navBestScore (normalizeComparableText (jsTrim betaLabel))
          (navRows soloStore RecipeAudienceFilter.all true) ∧
          ∃ t, r = some t ∧
            (t.directMatch = true ↔
              72 ≤ navBestScore (normalizeComparableText (jsTrim betaLabel))
                (navRows soloStore RecipeAudienceFilter.all true))))) :=
  ⟨⟨by decide, by decide⟩,
    nav_resolution_thresholds soloStore [betaLabel] RecipeAudienceFilter.all true
      betaLabel (by decide) (by decide)⟩

end RecipesMonorepo
